import Mathlib

/-!
Verification of the arnor infrastructure-orchestration CLI.

This file shallowly embeds the parts of the repository that the claims
touch:

* the SQLite-backed credential/config store (`internal/config/sqlite.go`),
  with tables modelled as lists of rows and SQL upserts modelled as
  key-based insert-or-replace on those lists;
* the config data model and `LoadConfig` / `SaveConfig`
  (`internal/config/sqlite.go`, `internal/config/config.go`);
* the port allocator `SuggestPort` (`cmd/root.go`, package project);
* the registrable-domain walk `RootDomain` (`internal/config/config.go`),
  with the nameserver lookup as an oracle parameter;
* the orchestration step sequencers `project.Setup`
  (`internal/project/setup.go`) and `service.Deploy`
  (`internal/service/deploy.go`), embedded as trace-producing functions
  over oracles for the external providers (Hetzner, DNS, DockerHub,
  SSH, GitHub), with the local store modelled concretely.
-/

namespace Arnor

/-! ## Generic key-based upsert

SQLite `INSERT ... ON CONFLICT(key) DO UPDATE SET <all non-key columns>`
on a table with a UNIQUE key is insert-or-replace: if a row with the same
key exists it is overwritten in place (keeping its position / rowid),
otherwise the new row is appended.  All four upserting statements in
`sqlite.go` (credentials, servers, projects, environments) update every
non-key column on conflict, so the conflicting row is replaced by the
incoming row wholesale. -/

section Upsert

variable {α : Type} {κ : Type} [DecidableEq κ]

/-- `SELECT ... WHERE key = k LIMIT`-style lookup: the first row whose
key is `k`. -/
def findByKey (key : α → κ) (rows : List α) (k : κ) : Option α :=
  rows.find? (fun r => decide (key r = k))

/-- Insert-or-replace keyed by `key`: replace every row whose key matches
(in place), or append when absent. -/
def upsertBy (key : α → κ) (rows : List α) (x : α) : List α :=
  if rows.any (fun r => decide (key r = key x)) then
    rows.map (fun r => if key r = key x then x else r)
  else
    rows ++ [x]

end Upsert

/-! ## Store data model (`internal/config/sqlite.go`)

One structure per table row.  The `environments` table references its
project by `project_id`; since `projects.name` is UNIQUE and projects are
never deleted, rows are keyed here by the project name instead of the
surrogate integer id. -/

/-- A row of the `credentials` table (UNIQUE on (service, name, key)). -/
structure Credential where
  service : String
  name : String
  key : String
  value : String
deriving DecidableEq, Repr

/-- A row of the `servers` table (UNIQUE on name); also the in-memory
`config.Server` struct, whose fields coincide. -/
structure Server where
  name : String
  ip : String
  hetznerProject : String
  hetznerID : Int
deriving DecidableEq, Repr

/-- A row of the `peon_keys` table (UNIQUE on server_ip). -/
structure PeonKeyRow where
  serverIP : String
  privateKey : String
  keyPath : String
deriving DecidableEq, Repr

/-- A row of the `projects` table (UNIQUE on name). -/
structure ProjectRow where
  name : String
  repo : String
  server : String
deriving DecidableEq, Repr

/-- A row of the `environments` table (UNIQUE on (project_id, env_name),
with the project identified by its unique name). -/
structure EnvRow where
  projectName : String
  envName : String
  domain : String
  dnsProvider : String
  branch : String
  deployPath : String
  deployUser : String
  port : Int
deriving DecidableEq, Repr

/-- The whole SQLite database state (the tables the claims touch). -/
structure DBState where
  credentials : List Credential
  servers : List Server
  peonKeys : List PeonKeyRow
  projects : List ProjectRow
  environments : List EnvRow
deriving DecidableEq, Repr

/-- The key of a credential row: the UNIQUE (service, name, key) triple. -/
def credKey (c : Credential) : String × String × String :=
  (c.service, c.name, c.key)

/-- The key of an environment row: the UNIQUE (project, env_name) pair. -/
def envKey (e : EnvRow) : String × String :=
  (e.projectName, e.envName)

/-- `GetCredential`: `SELECT value FROM credentials WHERE service = ? AND
name = ? AND key = ?`; `none` models the not-found error. -/
def GetCredential (st : DBState) (service name key : String) : Option String :=
  (findByKey credKey st.credentials (service, name, key)).map (·.value)

/-- `SetCredential`: `INSERT ... ON CONFLICT(service, name, key) DO UPDATE
SET value = excluded.value`. -/
def SetCredential (st : DBState) (service name key value : String) : DBState :=
  { st with credentials :=
      upsertBy credKey st.credentials ⟨service, name, key, value⟩ }

/-- `DeleteCredential`: `DELETE FROM credentials WHERE service = ? AND
name = ?` (all keys under that service/name pair). -/
def DeleteCredential (st : DBState) (service name : String) : DBState :=
  { st with credentials :=
      (st.credentials.filter
        (fun c => !(decide (c.service = service) && decide (c.name = name)))) }

/-- `GetPeonKey`: `SELECT private_key FROM peon_keys WHERE server_ip = ?`. -/
def GetPeonKey (st : DBState) (serverIP : String) : Option String :=
  (findByKey PeonKeyRow.serverIP st.peonKeys serverIP).map (·.privateKey)

/-- `ListHetznerProjects`: `SELECT DISTINCT name FROM credentials WHERE
service = 'hetzner' AND key = 'api_token' ORDER BY name`. -/
def ListHetznerProjects (st : DBState) : List String :=
  List.insertionSort (fun a b => a ≤ b)
    (((st.credentials.filter
      (fun c => decide (c.service = "hetzner") && decide (c.key = "api_token"))).map
        (·.name)).eraseDups)

/-! ## In-memory config (`internal/config/config.go`) -/

/-- The `config.Environment` struct. -/
structure Environment where
  domain : String
  dnsProvider : String
  branch : String
  deployPath : String
  deployUser : String
  port : Int
deriving DecidableEq, Repr

/-- The `config.Project` struct.  Go's `map[string]Environment` is
modelled as an association list with (in well-formed configs) distinct
keys; Go map iteration order is unspecified, the list order stands in
for one such order. -/
structure Project where
  name : String
  repo : String
  server : String
  environments : List (String × Environment)
deriving DecidableEq, Repr

/-- The `config.Config` struct; `HetznerProjects` carries only the alias
(the token-env field is unused by the store). -/
structure Config where
  hetznerProjects : List String
  servers : List Server
  projects : List Project
deriving DecidableEq, Repr

/-- `Config.FindServer`: first server with the given name, or nil. -/
def Config.findServer (c : Config) (name : String) : Option Server :=
  c.servers.find? (fun s => decide (s.name = name))

/-- `Config.FindProject`: first project with the given name, or nil. -/
def Config.findProject (c : Config) (name : String) : Option Project :=
  c.projects.find? (fun p => decide (p.name = name))

/-- The `Environment` carried by an environments-table row. -/
def EnvRow.toEnvironment (e : EnvRow) : Environment :=
  ⟨e.domain, e.dnsProvider, e.branch, e.deployPath, e.deployUser, e.port⟩

/-- The environments-table row for environment `env` of project
`pname` under environment name `en`. -/
def envRowOf (pname en : String) (env : Environment) : EnvRow :=
  ⟨pname, en, env.domain, env.dnsProvider, env.branch, env.deployPath,
    env.deployUser, env.port⟩

/-! ## `LoadConfig`

`SELECT name, ip, hetzner_project, hetzner_id FROM servers ORDER BY name`
then a projects/environments LEFT JOIN `ORDER BY p.name, e.env_name`,
grouped into one `Project` per project row (projects without environments
get an empty map). -/

/-- The environment map loaded for one project: its environment rows in
`env_name` order. -/
def loadEnvsFor (st : DBState) (pname : String) : List (String × Environment) :=
  ((List.insertionSort (fun a b => a.envName ≤ b.envName)
      (st.environments.filter (fun e => decide (e.projectName = pname)))).map
        (fun e => (e.envName, e.toEnvironment)))

/-- `LoadConfig`: a consistent snapshot of the store as a `Config`. -/
def LoadConfig (st : DBState) : Config :=
  { hetznerProjects := ListHetznerProjects st
    servers := List.insertionSort (fun a b => a.name ≤ b.name) st.servers
    projects :=
      ((List.insertionSort (fun a b => a.name ≤ b.name) st.projects).map
        (fun p => { name := p.name, repo := p.repo, server := p.server,
                    environments := loadEnvsFor st p.name })) }

/-! ## `SaveConfig`

`SaveConfig` opens a transaction, upserts every server, then for every
project upserts the project row, reads back its id, and upserts each of
the project's environments; any failure rolls the transaction back.  The
sequence of statements executed inside the transaction is flattened into
a list of `TxOp`; the loop structure of the Go code is mirrored by how
the list is built. -/

/-- One SQL statement executed inside the `SaveConfig` transaction. -/
inductive TxOp where
  /-- `INSERT INTO servers ... ON CONFLICT(name) DO UPDATE ...` -/
  | serverUpsert (srv : Server)
  /-- `INSERT INTO projects ... ON CONFLICT(name) DO UPDATE ...` -/
  | projectUpsert (row : ProjectRow)
  /-- `SELECT id FROM projects WHERE name = ?` (a read; can still fail) -/
  | selectProjectId (name : String)
  /-- `INSERT INTO environments ... ON CONFLICT(project_id, env_name) DO UPDATE ...` -/
  | envUpsert (row : EnvRow)
deriving DecidableEq, Repr

/-- The statements `SaveConfig` executes for `cfg`, in order: the server
loop, then per project the project upsert, the id read-back, and the
environment loop. -/
def txSteps (cfg : Config) : List TxOp :=
  (cfg.servers.map (fun srv => TxOp.serverUpsert srv)) ++
  (cfg.projects.flatMap (fun p =>
    TxOp.projectUpsert ⟨p.name, p.repo, p.server⟩ ::
    TxOp.selectProjectId p.name ::
    (p.environments.map (fun e => TxOp.envUpsert (envRowOf p.name e.1 e.2)))))

/-- The state effect of one transaction statement. -/
def applyOp (st : DBState) : TxOp → DBState
  | .serverUpsert srv =>
      { st with servers := upsertBy Server.name st.servers srv }
  | .projectUpsert row =>
      { st with projects := upsertBy ProjectRow.name st.projects row }
  | .selectProjectId _ => st
  | .envUpsert row =>
      { st with environments := upsertBy envKey st.environments row }

/-- `SaveConfig` on the happy path (every statement succeeds, the
transaction commits): all upserts applied in order. -/
def SaveConfig (st : DBState) (cfg : Config) : DBState :=
  (txSteps cfg).foldl applyOp st

/-- Runs the transaction's statements with a failure oracle (`failsAt i`
says whether the i-th statement returns an error); stops at the first
failure. -/
def runTx (failsAt : Nat → Bool) : DBState → List TxOp → Nat → Option DBState
  | st, [], _ => some st
  | st, op :: rest, i =>
      if failsAt i then none else runTx failsAt (applyOp st op) rest (i + 1)

/-- `SaveConfig` with explicit failure behaviour: on any statement
failure the function returns the error and the deferred `tx.Rollback()`
leaves the visible store state unchanged; otherwise `tx.Commit()` makes
all the upserts visible.  The `Bool` is true on the committed path. -/
def SaveConfigTx (failsAt : Nat → Bool) (st : DBState) (cfg : Config) :
    DBState × Bool :=
  match runTx failsAt st (txSteps cfg) 0 with
  | some txFinal => (txFinal, true)
  | none => (st, false)

/-! ## Lemmas about the transaction statement list -/

/-- The server row written by a transaction statement, if any. -/
def serverWrite? : TxOp → Option Server
  | .serverUpsert s => some s
  | _ => none

/-- The project row written by a transaction statement, if any. -/
def projectWrite? : TxOp → Option ProjectRow
  | .projectUpsert r => some r
  | _ => none

/-- The environment row written by a transaction statement, if any. -/
def envWrite? : TxOp → Option EnvRow
  | .envUpsert r => some r
  | _ => none

/-- The scan loop of `SuggestPort`, started at an arbitrary port: the
first port `≥ port` not in `used`. -/
def suggestFrom (used : List Int) (port : Int) : Int :=
  if port ∈ used then suggestFrom used (port + 1) else port
termination_by (used.filter (fun u => decide (port ≤ u))).length
decreasing_by
  have hmono : ∀ (l : List Int) (p q : Int → Bool),
      (∀ a, p a = true → q a = true) →
      (l.filter p).length ≤ (l.filter q).length := by
    intro l p q h
    induction l with
    | nil => simp
    | cons a as ih =>
      by_cases hp : p a = true
      · simp only [List.filter_cons, hp, h a hp, if_pos, List.length_cons]
        omega
      · by_cases hq : q a = true
        · simp only [List.filter_cons, hp, if_neg, Bool.false_eq_true,
            not_false_eq_true, hq, if_pos, List.length_cons]
          omega
        · simp only [List.filter_cons, hp, hq, if_neg, Bool.false_eq_true,
            not_false_eq_true]
          exact ih
  have hkey : ∀ (l : List Int) (q : Int), q ∈ l →
      (l.filter (fun u => decide (q + 1 ≤ u))).length <
        (l.filter (fun u => decide (q ≤ u))).length := by
    intro l q hq
    induction l with
    | nil => cases hq
    | cons u rest ih =>
      rcases List.mem_cons.mp hq with rfl | hmem2
      · have h1 : ¬ (decide (q + 1 ≤ q) = true) := by simp
        have h2 : decide (q ≤ q) = true := by simp
        simp only [List.filter_cons]
        rw [if_neg h1, if_pos h2, List.length_cons]
        have := hmono rest (fun v => decide (q + 1 ≤ v))
          (fun v => decide (q ≤ v)) (by intro a ha; simp at ha ⊢; omega)
        omega
      · have hrest := ih hmem2
        by_cases h1 : q + 1 ≤ u
        · have h2 : q ≤ u := by omega
          simp only [List.filter_cons, decide_eq_true h1, decide_eq_true h2,
            if_pos, List.length_cons]
          omega
        · simp only [List.filter_cons, decide_eq_false h1, if_neg,
            Bool.false_eq_true, not_false_eq_true]
          by_cases h2 : q ≤ u
          · simp only [decide_eq_true h2, if_pos, List.length_cons]
            omega
          · simp only [decide_eq_false h2, if_neg, Bool.false_eq_true,
              not_false_eq_true]
            omega
  exact hkey used port (by assumption)

/-- `SuggestPort` returns the lowest port starting from 3000 that is not
in `usedPorts`. -/
def SuggestPort (usedPorts : List Int) : Int :=
  suggestFrom usedPorts 3000

/-! ## Registrable-domain walk (`RootDomain`, `internal/config/config.go`)

`RootDomain` walks up from a full domain, querying `net.LookupNS` on each
candidate suffix.  The lookup is an oracle parameter
`lookupNS : String → Option (List String)` (`none` models a lookup
error, `some l` the returned NS records); the loop accepts a candidate
iff the lookup succeeded with at least one record
(`err == nil && len(nss) > 0`).

The Go loop finds the first `.` with `strings.Index`; it stops when there
is no dot (`idx < 0`) or the dot is the final byte (`idx == len-1`,
i.e. nothing follows the dot), otherwise continues with
`candidate[idx+1:]`, stopping first if that remainder has no dot (a bare
TLD is never queried).  `dropThroughDot` returns the part after the
first dot (`candidate[idx+1:]`), or `none` when there is no dot. -/

/-- The acceptance test `err == nil && len(nss) > 0`. -/
def nsOk (lookupNS : String → Option (List String)) (s : String) : Bool :=
  match lookupNS s with
  | some nss => !nss.isEmpty
  | none => false

/-- `candidate[strings.Index(candidate, ".")+1:]`, or `none` when the
candidate has no dot. -/
def dropThroughDot : List Char → Option (List Char)
  | [] => none
  | ch :: rest => if ch = '.' then some rest else dropThroughDot rest

/-- The loop of `RootDomain` over the candidate's characters. -/
def rootDomainAux (lookupNS : String → Option (List String))
    (c : List Char) : Option String :=
  if nsOk lookupNS (String.mk c) then some (String.mk c)
  else
    match h : dropThroughDot c with
    | none => none
    | some rest =>
      if rest = [] then none
      else if rest.contains '.' then rootDomainAux lookupNS rest
      else none
termination_by c.length
decreasing_by
  have hlen : ∀ (a b : List Char), dropThroughDot a = some b →
      b.length < a.length := by
    intro a
    induction a with
    | nil => intro b hb; cases hb
    | cons ch tl ih =>
      intro b hb
      unfold dropThroughDot at hb
      split at hb
      · cases hb
        simp
      · have := ih b hb
        simp only [List.length_cons]
        omega
  exact hlen c rest h

/-- `RootDomain` walks up from `domain` to the first suffix that has NS
records; `none` models the "no NS records found" error. -/
def RootDomain (lookupNS : String → Option (List String))
    (domain : String) : Option String :=
  rootDomainAux lookupNS domain.data

/-- The sequence of candidate suffixes the loop would query, in order. -/
def stripSeq (c : List Char) : List (List Char) :=
  c ::
    (match h : dropThroughDot c with
    | none => []
    | some rest =>
      if rest = [] then []
      else if rest.contains '.' then stripSeq rest
      else [])
termination_by c.length
decreasing_by
  have hlen : ∀ (a b : List Char), dropThroughDot a = some b →
      b.length < a.length := by
    intro a
    induction a with
    | nil => intro b hb; cases hb
    | cons ch tl ih =>
      intro b hb
      unfold dropThroughDot at hb
      split at hb
      · cases hb
        simp
      · have := ih b hb
        simp only [List.length_cons]
        omega
  exact hlen c rest h

/-! ### `RootDomain` on dot-separated labels

To state the walk the way the spec does ("repeatedly strips the leftmost
label"), domains are presented as lists of labels: nonempty, dot-free
labels joined by dots. -/

/-- Joins labels with dots: `joinLabels [sub, example, com]` is the
character list of `sub.example.com`. -/
def joinLabels : List (List Char) → List Char
  | [] => []
  | [l] => l
  | l :: ls => l ++ '.' :: joinLabels ls

/-- A well-formed label list: nonempty, and each label nonempty and
dot-free. -/
def WFLabels (ls : List (List Char)) : Prop :=
  ls ≠ [] ∧ ∀ l ∈ ls, l ≠ [] ∧ '.' ∉ l

/-- The suffixes the walk can query: the full list, then each tail down
to two labels. -/
def nsTails : List (List Char) → List (List (List Char))
  | [] => [[]]
  | l :: rest => (l :: rest) :: (if 2 ≤ rest.length then nsTails rest else [])

/-! ## The step sequencers (`project.Setup`, `service.Deploy`)

Both workflows are embedded as straight-line functions that mirror the
Go control flow.  The local store is the concrete `DBState` model;
every external collaborator (Hetzner, the DNS provider adapter,
DockerHub, SSH, the `gh` CLI, `net.LookupNS`) is an oracle field: its
result on the one occasion the workflow consults it.  Each run returns
the sequence of externally visible events (progress callbacks and
outbound calls), the resulting store state, and `none` on success or
`some msg` on the error path taken.  Storage-layer I/O failures of the
local store itself are not modelled here (they are covered by
`SaveConfigTx`); the claims about the sequencers quantify over runs in
which the local store does not fail. -/

/-- A DNS record as returned by a provider's `ListRecords`. -/
structure DNSRecord where
  id : String
  name : String
  rtype : String
  content : String
  ttl : String
deriving DecidableEq, Repr

/-- A DNS API call issued during a run, with its arguments. -/
inductive DNSCall where
  | listRecords (rootDomain : String)
  | deleteRecord (rootDomain id : String)
  | createRecord (rootDomain name rtype content ttl : String)
deriving DecidableEq, Repr

/-- An externally visible operation performed by a sequencer run. -/
inductive Action where
  | loadConfig
  | hetznerGetServer (name : String)
  | detectProvider (domain : String)
  | getCredential (service name key : String)
  | dockerhubEnsureRepo (owner repo : String)
  | getPeonKey (ip : String)
  | sshRunSetup (ip deployUser deployPath : String)
  | writeComposeFile (ip deployPath : String)
  | writeCaddyConfig (ip domain : String)
  | rootDomainLookup (domain : String)
  | dns (call : DNSCall)
  | setGithubSecrets (repo pfx : String)
  | generateWorkflow (repo envName : String)
  | saveConfig
  | sshDial (ip : String)
  | sshCreateDeployDir (ip deployPath : String)
  | readComposeFile (path : String)
  | sshUploadCompose (ip deployPath : String)
  | sshChownCompose (ip deployPath : String)
  | sshComposeUp (ip deployPath : String)
  | sshMkCaddyDir (ip : String)
  | sshWriteCaddyFile (ip domain : String)
  | sshCaddyValidate (ip : String)
  | sshCaddyReload (ip : String)
  | sshCaddyJournal (ip : String)
deriving DecidableEq, Repr

/-- One element of a run's visible trace: a progress-callback invocation
or an external action, tagged with the step it belongs to (0 for the
pre-step config load; the peon-key/SSH-dial interlude of `Deploy`,
which sits between steps 2 and 3 in the code, is tagged 2). -/
inductive Event where
  | progress (step total : Nat) (msg : String)
  | act (step : Nat) (a : Action)
deriving DecidableEq, Repr

/-- Orders a trace: step tags ascending, and within one step the
progress invocation before the step's actions. -/
def Event.rank : Event → Nat
  | .progress s _ _ => 2 * s
  | .act s _ => 2 * s + 1

/-- The progress-callback invocations of a trace, in order. -/
def progressEvents (tr : List Event) : List (Nat × Nat × String) :=
  tr.filterMap (fun e =>
    match e with
    | .progress s t m => some (s, t, m)
    | .act _ _ => none)

/-- The DNS calls of a trace, in order. -/
def dnsCalls (tr : List Event) : List DNSCall :=
  tr.filterMap (fun e =>
    match e with
    | .act _ (.dns c) => some c
    | _ => none)

/-- A server as returned by `hetzner.Manager.GetServer`
(`ServerWithProject`: the fornost server plus the project alias). -/
structure HetznerServer where
  name : String
  ip : String
  projectAlias : String
  id : Int
deriving DecidableEq, Repr

/-- `strings.TrimSuffix`: drop `suffix` when present, else unchanged
(modelled on the character sequences of the two strings). -/
def trimSuffix (s suffix : String) : String :=
  if suffix.data.isSuffixOf s.data
  then { data := s.data.take (s.data.length - suffix.data.length) }
  else s

/-- `deployUserName` from `internal/project/setup.go`. -/
def deployUserName (project env : String) : String :=
  if env = "dev" then project ++ "-dev-deploy" else project ++ "-deploy"

/-- `deployDirName` from `internal/project/setup.go`. -/
def deployDirName (project env : String) : String :=
  if env = "dev" then project ++ "-dev" else project

/-- Replaces the first project with the given name (the row
`FindProject` returns a pointer into). -/
def updateFirstProject : List Project → String → (Project → Project) →
    List Project
  | [], _, _ => []
  | pr :: rest, n, f =>
      if pr.name = n then f pr :: rest else pr :: updateFirstProject rest n f

/-- The shared final-step config update of both workflows: write `env`
under `envName` on the existing project (creating the environment map
entry, or overwriting it), or append a fresh project carrying only it. -/
def applyEnvToConfig (cfg : Config) (projectName repo serverName
    envName : String) (env : Environment) : Config :=
  match cfg.findProject projectName with
  | some _ =>
      { cfg with projects := (updateFirstProject cfg.projects projectName
          (fun pr => { pr with environments :=
            (upsertBy Prod.fst pr.environments (envName, env)) })) }
  | none =>
      { cfg with projects := (cfg.projects ++
          [{ name := projectName, repo := repo, server := serverName,
             environments := [(envName, env)] }]) }

/-- The records step 7 deletes: type A, CNAME or ALIAS with name exactly
the target domain. -/
def matchesDomain (domain : String) (r : DNSRecord) : Bool :=
  decide (r.name = domain) &&
    (decide (r.rtype = "A") || decide (r.rtype = "CNAME") ||
      decide (r.rtype = "ALIAS"))

/-- `SetupParams` (`internal/project/setup.go`), minus the store and the
progress callback, which the embedding supplies itself. -/
structure SetupParams where
  projectName : String
  repo : String
  serverName : String
  envName : String
  domain : String
  port : Int
  peonKey : String
deriving DecidableEq, Repr

/-- The `Environment` `Setup` persists in step 10. -/
def setupEnv (p : SetupParams) (provName : String) : Environment :=
  { domain := p.domain
    dnsProvider := provName
    branch := if p.envName = "prod" then "main" else "dev"
    deployPath := "/opt/" ++ deployDirName p.projectName p.envName
    deployUser := deployUserName p.projectName p.envName
    port := p.port }

/-- The store state a successful `Setup` run leaves behind: the loaded
snapshot with the target environment merged in, saved back. -/
def setupFinalStore (st : DBState) (p : SetupParams) (provName : String) :
    DBState :=
  SaveConfig st (applyEnvToConfig (LoadConfig st) p.projectName p.repo
    p.serverName p.envName (setupEnv p provName))

/-- Results of the external collaborators consulted by one `Setup` run.
`none`/`false` means the call fails.  `zone` holds the records
`ListRecords` would report for the root domain (returned when
`listOk`).  `createWWWOk` is the outcome of the best-effort www CNAME
creation; the code discards it. -/
structure SetupOracles where
  managerOk : Bool
  getServer : Option HetznerServer
  providerName : Option String
  ensureRepoOk : Bool
  runSetup : Option String
  writeComposeOk : Bool
  writeCaddyOk : Bool
  rootDomain : Option String
  listOk : Bool
  zone : List DNSRecord
  createAOk : Bool
  createWWWOk : Bool
  secretsOk : Bool
  workflowOk : Bool
deriving DecidableEq, Repr

/-- `project.Setup`, continuation after the peon key is resolved
(step 4's `RunSetup` call through step 10).  `tr4` is the trace so far. -/
def setupTail (o : SetupOracles) (st : DBState) (p : SetupParams)
    (server : Server) (provName : String) (tr4 : List Event) :
    List Event × DBState × Option String :=
  let cfg := LoadConfig st
  let deployUser := deployUserName p.projectName p.envName
  let deployPath := "/opt/" ++ deployDirName p.projectName p.envName
  let tr4c := tr4 ++ [Event.act 4 (.sshRunSetup server.ip deployUser deployPath)]
  match o.runSetup with
  | none => (tr4c, st, some "SSH setup")
  | some _ =>
  -- Step 5: Write docker-compose.yml
  let tr5 := tr4c ++ [Event.progress 5 10 "Writing docker-compose.yml...",
    Event.act 5 (.writeComposeFile server.ip deployPath)]
  match o.writeComposeOk with
  | false => (tr5, st, some "writing docker-compose.yml")
  | true =>
  -- Step 6: Write Caddy config
  let tr6 := tr5 ++ [Event.progress 6 10 "Writing Caddy config...",
    Event.act 6 (.writeCaddyConfig server.ip p.domain)]
  match o.writeCaddyOk with
  | false => (tr6, st, some "writing Caddy config")
  | true =>
  -- Step 7: Create DNS records
  let tr7a := tr6 ++ [Event.progress 7 10 "Creating DNS records...",
    Event.act 7 (.rootDomainLookup p.domain)]
  match o.rootDomain with
  | none => (tr7a, st, some "resolving root domain")
  | some rootD =>
  let subName := if rootD = p.domain then "" else trimSuffix p.domain ("." ++ rootD)
  -- Remove existing A/CNAME/ALIAS records (skipped when listing errors)
  let tr7b := tr7a ++ [Event.act 7 (.dns (.listRecords rootD))]
  let deletes : List Event :=
    match o.listOk with
    | true => (o.zone.filter (matchesDomain p.domain)).map
        (fun r => Event.act 7 (.dns (.deleteRecord rootD r.id)))
    | false => []
  let tr7c := tr7b ++ deletes ++
    [Event.act 7 (.dns (.createRecord rootD subName "A" server.ip "600"))]
  match o.createAOk with
  | false => (tr7c, st, some "creating A record")
  | true =>
  -- Best-effort www CNAME: result discarded
  let wwwName := if subName = "" then "www" else "www." ++ subName
  let tr7d := tr7c ++
    [Event.act 7 (.dns (.createRecord rootD wwwName "CNAME" p.domain "600"))]
  -- Step 8: Set GitHub Actions secrets
  let tr8 := tr7d ++ [Event.progress 8 10 "Setting GitHub secrets...",
    Event.act 8 (.setGithubSecrets p.repo p.envName.toUpper)]
  match o.secretsOk with
  | false => (tr8, st, some "setting GitHub secrets")
  | true =>
  -- Step 9: Generate workflow files
  let tr9 := tr8 ++ [Event.progress 9 10 "Generating workflow files...",
    Event.act 9 (.generateWorkflow p.repo p.envName)]
  match o.workflowOk with
  | false => (tr9, st, some "generating workflow")
  | true =>
  -- Step 10: Update config
  let tr10 := tr9 ++ [Event.progress 10 10 "Updating config...",
    Event.act 10 .saveConfig]
  let cfg2 := applyEnvToConfig cfg p.projectName p.repo p.serverName
    p.envName (setupEnv p provName)
  (tr10, SaveConfig st cfg2, none)

/-- `project.Setup`, steps 2 through 4 (DNS provider detection, the
DockerHub repo, and the peon-key resolution), given the resolved
server.  `tr1` is the trace so far. -/
def setupStep2 (o : SetupOracles) (st : DBState) (p : SetupParams)
    (server : Server) (tr1 : List Event) :
    List Event × DBState × Option String :=
  -- Step 2: Detect DNS provider
  let tr2 := tr1 ++ [Event.progress 2 10 "Detecting DNS provider...",
    Event.act 2 (.detectProvider p.domain)]
  match o.providerName with
  | none => (tr2, st, some "detecting DNS provider")
  | some provName =>
  -- Step 3: Create DockerHub repo
  let tr3a := tr2 ++ [Event.progress 3 10 "Creating DockerHub repo...",
    Event.act 3 (.getCredential "dockerhub" "default" "username")]
  match GetCredential st "dockerhub" "default" "username" with
  | none => (tr3a, st, some "dockerhub username")
  | some dockerHubUsername =>
  let tr3b := tr3a ++ [Event.act 3 (.getCredential "dockerhub" "default" "password")]
  match GetCredential st "dockerhub" "default" "password" with
  | none => (tr3b, st, some "dockerhub password")
  | some _ =>
  -- token read: error discarded, missing token treated as ""
  let tr3c := tr3b ++ [Event.act 3 (.getCredential "dockerhub" "default" "token"),
    Event.act 3 (.dockerhubEnsureRepo dockerHubUsername p.projectName)]
  match o.ensureRepoOk with
  | false => (tr3c, st, some "creating DockerHub repo")
  | true =>
  -- Step 4: SSH setup; peon key by parameter or store lookup
  let tr4a := tr3c ++ [Event.progress 4 10 "Setting up deploy user on VPS..."]
  if p.peonKey = "" then
    let tr := tr4a ++ [Event.act 4 (.getPeonKey server.ip)]
    match GetPeonKey st server.ip with
    | some _ => setupTail o st p server provName tr
    | none => (tr, st, some "peon key")
  else setupTail o st p server provName tr4a

/-- `project.Setup`: the ten-step project creation orchestration
(step 1 resolves the server, the helpers carry the remaining steps). -/
def Setup (o : SetupOracles) (st : DBState) (p : SetupParams) :
    List Event × DBState × Option String :=
  let cfg := LoadConfig st
  -- Step 1: Look up server IP
  let tr1p := [Event.act 0 .loadConfig,
    Event.progress 1 10 "Looking up server..."]
  match cfg.findServer p.serverName with
  | some srv => setupStep2 o st p srv tr1p
  | none =>
    match o.managerOk with
    | false => (tr1p, st, some "creating Hetzner manager")
    | true =>
      let tr := tr1p ++ [Event.act 1 (.hetznerGetServer p.serverName)]
      match o.getServer with
      | some hs =>
        setupStep2 o st p
          { name := hs.name, ip := hs.ip, hetznerProject := hs.projectAlias,
            hetznerID := hs.id } tr
      | none => (tr, st, some "server not found in config or Hetzner")

/-- `DeployParams` (`internal/service/deploy.go`), minus the store and
the progress callback. -/
structure DeployParams where
  serviceName : String
  serverName : String
  domain : String
  port : Int
  composeFile : String
  peonKey : String
deriving DecidableEq, Repr

/-- The `Environment` `Deploy` persists in step 8: always under key
"prod", deploy user "peon", branch left empty. -/
def deployEnv (p : DeployParams) (provName : String) : Environment :=
  { domain := p.domain
    dnsProvider := provName
    branch := ""
    deployPath := "/opt/" ++ p.serviceName
    deployUser := "peon"
    port := p.port }

/-- The store state a successful `Deploy` run leaves behind. -/
def deployFinalStore (st : DBState) (p : DeployParams) (provName : String) :
    DBState :=
  SaveConfig st (applyEnvToConfig (LoadConfig st) p.serviceName ""
    p.serverName "prod" (deployEnv p provName))

/-- Results of the external collaborators consulted by one `Deploy` run;
conventions as for `SetupOracles`. -/
structure DeployOracles where
  managerOk : Bool
  getServer : Option HetznerServer
  providerName : Option String
  dialOk : Bool
  createDirOk : Bool
  readComposeOk : Bool
  uploadOk : Bool
  chownOk : Bool
  composeUpOk : Bool
  mkCaddyDirOk : Bool
  writeCaddyFileOk : Bool
  validateOk : Bool
  reloadOk : Bool
  rootDomain : Option String
  listOk : Bool
  zone : List DNSRecord
  createAOk : Bool
  createWWWOk : Bool
deriving DecidableEq, Repr

/-- `service.Deploy`, continuation after the peon key is resolved (the
single SSH connection and steps 3 through 8).  `tr2` is the trace so
far. -/
def deployTail (o : DeployOracles) (st : DBState) (p : DeployParams)
    (server : Server) (provName : String) (tr2 : List Event) :
    List Event × DBState × Option String :=
  let cfg := LoadConfig st
  -- Open single SSH connection for steps 3-6
  let tr2c := tr2 ++ [Event.act 2 (.sshDial server.ip)]
  match o.dialOk with
  | false => (tr2c, st, some "SSH dial")
  | true =>
  let deployPath := "/opt/" ++ p.serviceName
  -- Step 3: Create deploy directory (mkdir -p and chown, one loop)
  let tr3 := tr2c ++ [Event.progress 3 8 "Creating deploy directory...",
    Event.act 3 (.sshCreateDeployDir server.ip deployPath)]
  match o.createDirOk with
  | false => (tr3, st, some "creating deploy dir")
  | true =>
  -- Step 4: Upload docker-compose.yml
  let tr4a := tr3 ++ [Event.progress 4 8 "Uploading docker-compose.yml...",
    Event.act 4 (.readComposeFile p.composeFile)]
  match o.readComposeOk with
  | false => (tr4a, st, some "reading compose file")
  | true =>
  let tr4b := tr4a ++ [Event.act 4 (.sshUploadCompose server.ip deployPath)]
  match o.uploadOk with
  | false => (tr4b, st, some "uploading compose file")
  | true =>
  let tr4c := tr4b ++ [Event.act 4 (.sshChownCompose server.ip deployPath)]
  match o.chownOk with
  | false => (tr4c, st, some "chowning compose file")
  | true =>
  -- Step 5: Run docker compose up
  let tr5 := tr4c ++ [Event.progress 5 8 "Starting containers...",
    Event.act 5 (.sshComposeUp server.ip deployPath)]
  match o.composeUpOk with
  | false => (tr5, st, some "running docker compose up")
  | true =>
  -- Step 6: Generate and deploy Caddy config
  let tr6a := tr5 ++ [Event.progress 6 8 "Writing Caddy config...",
    Event.act 6 (.sshMkCaddyDir server.ip)]
  match o.mkCaddyDirOk with
  | false => (tr6a, st, some "creating caddy conf.d")
  | true =>
  let tr6b := tr6a ++ [Event.act 6 (.sshWriteCaddyFile server.ip p.domain)]
  match o.writeCaddyFileOk with
  | false => (tr6b, st, some "writing caddy config")
  | true =>
  let tr6c := tr6b ++ [Event.act 6 (.sshCaddyValidate server.ip)]
  match o.validateOk with
  | false => (tr6c, st, some "caddy config validation failed")
  | true =>
  let tr6d := tr6c ++ [Event.act 6 (.sshCaddyReload server.ip)]
  match o.reloadOk with
  | false =>
    -- journal output captured into the error
    (tr6d ++ [Event.act 6 (.sshCaddyJournal server.ip)], st, some "reloading caddy")
  | true =>
  -- Step 7: Create DNS records
  let tr7a := tr6d ++ [Event.progress 7 8 "Creating DNS records...",
    Event.act 7 (.rootDomainLookup p.domain)]
  match o.rootDomain with
  | none => (tr7a, st, some "resolving root domain")
  | some rootD =>
  let subName := if rootD = p.domain then "" else trimSuffix p.domain ("." ++ rootD)
  let tr7b := tr7a ++ [Event.act 7 (.dns (.listRecords rootD))]
  let deletes : List Event :=
    match o.listOk with
    | true => (o.zone.filter (matchesDomain p.domain)).map
        (fun r => Event.act 7 (.dns (.deleteRecord rootD r.id)))
    | false => []
  let tr7c := tr7b ++ deletes ++
    [Event.act 7 (.dns (.createRecord rootD subName "A" server.ip "600"))]
  match o.createAOk with
  | false => (tr7c, st, some "creating A record")
  | true =>
  -- Best-effort www CNAME: result discarded
  let wwwName := if subName = "" then "www" else "www." ++ subName
  let tr7d := tr7c ++
    [Event.act 7 (.dns (.createRecord rootD wwwName "CNAME" p.domain "600"))]
  -- Step 8: Save to config
  let tr8 := tr7d ++ [Event.progress 8 8 "Updating config...",
    Event.act 8 .saveConfig]
  let cfg2 := applyEnvToConfig cfg p.serviceName "" p.serverName "prod"
    (deployEnv p provName)
  (tr8, SaveConfig st cfg2, none)

/-- `service.Deploy`, step 2 and the peon-key resolution, given the
resolved server. -/
def deployStep2 (o : DeployOracles) (st : DBState) (p : DeployParams)
    (server : Server) (tr1 : List Event) :
    List Event × DBState × Option String :=
  -- Step 2: Detect DNS provider
  let tr2 := tr1 ++ [Event.progress 2 8 "Detecting DNS provider...",
    Event.act 2 (.detectProvider p.domain)]
  match o.providerName with
  | none => (tr2, st, some "detecting DNS provider")
  | some provName =>
  -- Resolve peon key (between steps 2 and 3 in the code; tagged 2)
  if p.peonKey = "" then
    let tr := tr2 ++ [Event.act 2 (.getPeonKey server.ip)]
    match GetPeonKey st server.ip with
    | some _ => deployTail o st p server provName tr
    | none => (tr, st, some "peon key")
  else deployTail o st p server provName tr2

/-- `service.Deploy`: the eight-step service deployment orchestration
(step 1 resolves the server, the helpers carry the remaining steps). -/
def Deploy (o : DeployOracles) (st : DBState) (p : DeployParams) :
    List Event × DBState × Option String :=
  let cfg := LoadConfig st
  -- Step 1: Look up server IP
  let tr1p := [Event.act 0 .loadConfig,
    Event.progress 1 8 "Looking up server..."]
  match cfg.findServer p.serverName with
  | some srv => deployStep2 o st p srv tr1p
  | none =>
    match o.managerOk with
    | false => (tr1p, st, some "creating Hetzner manager")
    | true =>
      let tr := tr1p ++ [Event.act 1 (.hetznerGetServer p.serverName)]
      match o.getServer with
      | some hs =>
        deployStep2 o st p
          { name := hs.name, ip := hs.ip, hetznerProject := hs.projectAlias,
            hetznerID := hs.id } tr
      | none => (tr, st, some "server not found in config or Hetzner")

/-! ## Concrete states for the witnesses -/

/-- A concrete all-collaborators-succeed oracle record for `Setup`, with
one pre-existing A record on the target domain in the zone. -/
def oSetup0 : SetupOracles :=
  { managerOk := true
    getServer := some ⟨"vps1", "1.2.3.4", "prod", 7⟩
    providerName := some "cloudflare"
    ensureRepoOk := true
    runSetup := some "ok"
    writeComposeOk := true
    writeCaddyOk := true
    rootDomain := some "angmar.dev"
    listOk := true
    zone := [⟨"42", "foo.angmar.dev", "A", "9.9.9.9", "600"⟩]
    createAOk := true
    createWWWOk := true
    secretsOk := true
    workflowOk := true }

/-- A concrete store holding the DockerHub credentials and the peon key
`Setup` consults. -/
def stSetup0 : DBState :=
  { credentials := [⟨"dockerhub", "default", "username", "user1"⟩,
                    ⟨"dockerhub", "default", "password", "pw"⟩]
    servers := []
    peonKeys := [⟨"1.2.3.4", "KEY", "/root/key"⟩]
    projects := []
    environments := [] }

/-- Concrete `Setup` parameters for the witnesses. -/
def pSetup0 : SetupParams :=
  { projectName := "myproj"
    repo := "github.com/x/y"
    serverName := "vps1"
    envName := "prod"
    domain := "foo.angmar.dev"
    port := 3000
    peonKey := "" }

/-- A concrete all-collaborators-succeed oracle record for `Deploy`. -/
def oDeploy0 : DeployOracles :=
  { managerOk := true
    getServer := some ⟨"vps1", "1.2.3.4", "prod", 7⟩
    providerName := some "cloudflare"
    dialOk := true
    createDirOk := true
    readComposeOk := true
    uploadOk := true
    chownOk := true
    composeUpOk := true
    mkCaddyDirOk := true
    writeCaddyFileOk := true
    validateOk := true
    reloadOk := true
    rootDomain := some "angmar.dev"
    listOk := true
    zone := []
    createAOk := true
    createWWWOk := true }

/-- A concrete store for the `Deploy` witnesses: the peon key is
present, and the target project already has a stale "prod" row that the
run must overwrite, plus an unrelated "dev" row it must keep. -/
def stDeploy0 : DBState :=
  { credentials := []
    servers := []
    peonKeys := [⟨"1.2.3.4", "KEY", "/root/key"⟩]
    projects := [⟨"svc", "github.com/x/y", "vps1"⟩]
    environments := [⟨"svc", "prod", "old.angmar.dev", "manual", "main",
                      "/srv/svc", "root", 8080⟩,
                     ⟨"svc", "dev", "dev.angmar.dev", "manual", "dev",
                      "/srv/svc-dev", "root", 8081⟩] }

/-- `stSetup0` with a pre-existing "dev" environment row of the target
project, for the frame-effect witness. -/
def stSetup1 : DBState :=
  { stSetup0 with environments := [⟨"myproj", "dev", "dev.angmar.dev",
      "manual", "dev", "/opt/myproj-dev", "myproj-dev-deploy", 3001⟩] }

/-- A concrete "prod" environment for the round-trip witness. -/
def envP : Environment :=
  ⟨"foo.angmar.dev", "cloudflare", "main", "/opt/alpha", "alpha-deploy", 3000⟩

/-- A concrete "dev" environment for the round-trip witness. -/
def envD : Environment :=
  ⟨"dev.angmar.dev", "cloudflare", "dev", "/opt/alpha-dev",
    "alpha-dev-deploy", 3001⟩

/-- The empty store, for the round-trip witness. -/
def stC3 : DBState := ⟨[], [], [], [], []⟩

/-- A one-server, one-project config writing the "prod" environment. -/
def cfgA0 : Config :=
  ⟨[], [⟨"vps1", "1.2.3.4", "prod", 7⟩],
    [⟨"alpha", "github.com/x/y", "vps1", [("prod", envP)]⟩]⟩

/-- A second config for the same project writing only the "dev"
environment (a separate save that must merge, not overwrite). -/
def cfgB0 : Config :=
  ⟨[], [], [⟨"alpha", "github.com/x/y", "vps1", [("dev", envD)]⟩]⟩

/-- Concrete `Deploy` parameters for the witnesses. -/
def pDeploy0 : DeployParams :=
  { serviceName := "svc"
    serverName := "vps1"
    domain := "foo.angmar.dev"
    port := 3000
    composeFile := "docker-compose.yml"
    peonKey := "" }

/-! ## Success-case characterization of the sequencers -/

/-- The server a run resolves: local inventory first, then the Hetzner
lookup (the fallback row is unreachable on successful runs). -/
def setupServer (o : SetupOracles) (st : DBState) (p : SetupParams) :
    Server :=
  match (LoadConfig st).findServer p.serverName with
  | some srv => srv
  | none =>
    match o.getServer with
    | some hs => ⟨hs.name, hs.ip, hs.projectAlias, hs.id⟩
    | none => ⟨"", "", "", 0⟩

/-- The events a successful run of `setupTail` appends. -/
def setupTailEvents (o : SetupOracles) (p : SetupParams) (server : Server) :
    List Event :=
  let deployUser := deployUserName p.projectName p.envName
  let deployPath := "/opt/" ++ deployDirName p.projectName p.envName
  let rootD := o.rootDomain.getD ""
  let subName := if rootD = p.domain then "" else trimSuffix p.domain ("." ++ rootD)
  let wwwName := if subName = "" then "www" else "www." ++ subName
  [Event.act 4 (.sshRunSetup server.ip deployUser deployPath),
   Event.progress 5 10 "Writing docker-compose.yml...",
   Event.act 5 (.writeComposeFile server.ip deployPath),
   Event.progress 6 10 "Writing Caddy config...",
   Event.act 6 (.writeCaddyConfig server.ip p.domain),
   Event.progress 7 10 "Creating DNS records...",
   Event.act 7 (.rootDomainLookup p.domain),
   Event.act 7 (.dns (.listRecords rootD))]
  ++ (match o.listOk with
      | true => (o.zone.filter (matchesDomain p.domain)).map
          (fun r => Event.act 7 (.dns (.deleteRecord rootD r.id)))
      | false => [])
  ++ [Event.act 7 (.dns (.createRecord rootD subName "A" server.ip "600")),
      Event.act 7 (.dns (.createRecord rootD wwwName "CNAME" p.domain "600")),
      Event.progress 8 10 "Setting GitHub secrets...",
      Event.act 8 (.setGithubSecrets p.repo p.envName.toUpper),
      Event.progress 9 10 "Generating workflow files...",
      Event.act 9 (.generateWorkflow p.repo p.envName),
      Event.progress 10 10 "Updating config...",
      Event.act 10 .saveConfig]

/-- The events a successful run of `setupStep2` appends. -/
def setupStep2Events (o : SetupOracles) (st : DBState) (p : SetupParams)
    (server : Server) : List Event :=
  [Event.progress 2 10 "Detecting DNS provider...",
   Event.act 2 (.detectProvider p.domain),
   Event.progress 3 10 "Creating DockerHub repo...",
   Event.act 3 (.getCredential "dockerhub" "default" "username"),
   Event.act 3 (.getCredential "dockerhub" "default" "password"),
   Event.act 3 (.getCredential "dockerhub" "default" "token"),
   Event.act 3 (.dockerhubEnsureRepo
     ((GetCredential st "dockerhub" "default" "username").getD "")
     p.projectName),
   Event.progress 4 10 "Setting up deploy user on VPS..."]
  ++ (if p.peonKey = "" then [Event.act 4 (.getPeonKey server.ip)] else [])
  ++ setupTailEvents o p server

/-- The event trace of a successful `Setup` run. -/
def setupSuccessTrace (o : SetupOracles) (st : DBState) (p : SetupParams) :
    List Event :=
  [Event.act 0 .loadConfig, Event.progress 1 10 "Looking up server..."]
  ++ (match (LoadConfig st).findServer p.serverName with
      | some _ => []
      | none => [Event.act 1 (.hetznerGetServer p.serverName)])
  ++ setupStep2Events o st p (setupServer o st p)

/-- The server a `Deploy` run resolves (as `setupServer`). -/
def deployServer (o : DeployOracles) (st : DBState) (p : DeployParams) :
    Server :=
  match (LoadConfig st).findServer p.serverName with
  | some srv => srv
  | none =>
    match o.getServer with
    | some hs => ⟨hs.name, hs.ip, hs.projectAlias, hs.id⟩
    | none => ⟨"", "", "", 0⟩

/-- The events a successful run of `deployTail` appends. -/
def deployTailEvents (o : DeployOracles) (p : DeployParams)
    (server : Server) : List Event :=
  let deployPath := "/opt/" ++ p.serviceName
  let rootD := o.rootDomain.getD ""
  let subName := if rootD = p.domain then "" else trimSuffix p.domain ("." ++ rootD)
  let wwwName := if subName = "" then "www" else "www." ++ subName
  [Event.act 2 (.sshDial server.ip),
   Event.progress 3 8 "Creating deploy directory...",
   Event.act 3 (.sshCreateDeployDir server.ip deployPath),
   Event.progress 4 8 "Uploading docker-compose.yml...",
   Event.act 4 (.readComposeFile p.composeFile),
   Event.act 4 (.sshUploadCompose server.ip deployPath),
   Event.act 4 (.sshChownCompose server.ip deployPath),
   Event.progress 5 8 "Starting containers...",
   Event.act 5 (.sshComposeUp server.ip deployPath),
   Event.progress 6 8 "Writing Caddy config...",
   Event.act 6 (.sshMkCaddyDir server.ip),
   Event.act 6 (.sshWriteCaddyFile server.ip p.domain),
   Event.act 6 (.sshCaddyValidate server.ip),
   Event.act 6 (.sshCaddyReload server.ip),
   Event.progress 7 8 "Creating DNS records...",
   Event.act 7 (.rootDomainLookup p.domain),
   Event.act 7 (.dns (.listRecords rootD))]
  ++ (match o.listOk with
      | true => (o.zone.filter (matchesDomain p.domain)).map
          (fun r => Event.act 7 (.dns (.deleteRecord rootD r.id)))
      | false => [])
  ++ [Event.act 7 (.dns (.createRecord rootD subName "A" server.ip "600")),
      Event.act 7 (.dns (.createRecord rootD wwwName "CNAME" p.domain "600")),
      Event.progress 8 8 "Updating config...",
      Event.act 8 .saveConfig]

/-- The events a successful run of `deployStep2` appends. -/
def deployStep2Events (o : DeployOracles) (st : DBState) (p : DeployParams)
    (server : Server) : List Event :=
  [Event.progress 2 8 "Detecting DNS provider...",
   Event.act 2 (.detectProvider p.domain)]
  ++ (if p.peonKey = "" then [Event.act 2 (.getPeonKey server.ip)] else [])
  ++ deployTailEvents o p server

/-- The event trace of a successful `Deploy` run. -/
def deploySuccessTrace (o : DeployOracles) (st : DBState)
    (p : DeployParams) : List Event :=
  [Event.act 0 .loadConfig, Event.progress 1 8 "Looking up server..."]
  ++ (match (LoadConfig st).findServer p.serverName with
      | some _ => []
      | none => [Event.act 1 (.hetznerGetServer p.serverName)])
  ++ deployStep2Events o st p (deployServer o st p)

/-- The progress invocations `Setup` makes, in order. -/
def setupProgressList : List (Nat × Nat × String) :=
  [(1, 10, "Looking up server..."), (2, 10, "Detecting DNS provider..."),
   (3, 10, "Creating DockerHub repo..."),
   (4, 10, "Setting up deploy user on VPS..."),
   (5, 10, "Writing docker-compose.yml..."), (6, 10, "Writing Caddy config..."),
   (7, 10, "Creating DNS records..."), (8, 10, "Setting GitHub secrets..."),
   (9, 10, "Generating workflow files..."), (10, 10, "Updating config...")]

/-- The progress invocations `Deploy` makes, in order. -/
def deployProgressList : List (Nat × Nat × String) :=
  [(1, 8, "Looking up server..."), (2, 8, "Detecting DNS provider..."),
   (3, 8, "Creating deploy directory..."),
   (4, 8, "Uploading docker-compose.yml..."), (5, 8, "Starting containers..."),
   (6, 8, "Writing Caddy config..."), (7, 8, "Creating DNS records..."),
   (8, 8, "Updating config...")]

instance : IsTrans Event (fun a b => Event.rank a ≤ Event.rank b) :=
  ⟨fun _ _ _ => Nat.le_trans⟩

/-- The DNS calls step 7 of both workflows issues: the zone listing at
the root domain, then (only when the listing succeeded) one deletion per
pre-existing A/CNAME/ALIAS record whose name is exactly the target
domain, then one A-record creation named by the subdomain remainder
(empty at the apex) pointing at the host IP, then the best-effort www
CNAME creation. -/
def dnsPlan (rootDomainO : Option String) (listOk : Bool)
    (zone : List DNSRecord) (domain serverIP : String) : List DNSCall :=
  let rootD := rootDomainO.getD ""
  let subName := if rootD = domain then "" else trimSuffix domain ("." ++ rootD)
  let wwwName := if subName = "" then "www" else "www." ++ subName
  DNSCall.listRecords rootD ::
    ((match listOk with
      | true => (zone.filter (matchesDomain domain)).map
          (fun r => DNSCall.deleteRecord rootD r.id)
      | false => []) ++
     [DNSCall.createRecord rootD subName "A" serverIP "600",
      DNSCall.createRecord rootD wwwName "CNAME" domain "600"])

section Upsert


variable {α : Type} {κ : Type} [DecidableEq κ]

theorem findByKey_upsertBy_self (key : α → κ) (rows : List α) (x : α) :
    findByKey key (upsertBy key rows x) (key x) = some x := by
  unfold upsertBy
  split
  case isTrue h =>
    induction rows with
    | nil => simp at h
    | cons r rs ih =>
      by_cases hr : key r = key x
      · simp [findByKey, List.find?, hr]
      · simp only [List.any_cons, decide_eq_true_eq, hr, false_or] at h
        simp only [List.map_cons, if_neg hr]
        simpa [findByKey, List.find?, hr] using ih h
  case isFalse h =>
    simp only [List.any_eq_true, decide_eq_true_eq, not_exists, not_and] at h
    unfold findByKey
    rw [List.find?_append]
    have : rows.find? (fun r => decide (key r = key x)) = none := by
      rw [List.find?_eq_none]
      intro r hr
      simp [h r hr]
    simp [this, List.find?]

theorem findByKey_upsertBy_other (key : α → κ) (rows : List α) (x : α)
    (k : κ) (hk : k ≠ key x) :
    findByKey key (upsertBy key rows x) k = findByKey key rows k := by
  have hxk : ¬ key x = k := fun h => hk h.symm
  unfold upsertBy findByKey
  split
  case isTrue h =>
    clear h
    induction rows with
    | nil => simp
    | cons r rs ih =>
      by_cases hr : key r = key x
      · have h1 : ¬ key r = k := by rw [hr]; exact hxk
        simp only [List.map_cons, if_pos hr, List.find?_cons,
          decide_eq_false hxk, decide_eq_false h1]
        exact ih
      · simp only [List.map_cons, if_neg hr, List.find?_cons]
        cases hd : decide (key r = k)
        · exact ih
        · rfl
  case isFalse h =>
    rw [List.find?_append]
    simp [List.find?, decide_eq_false hxk, Option.or_none]

theorem findByKey_isSome_upsertBy (key : α → κ) (rows : List α) (x : α)
    (k : κ) (h : (findByKey key rows k).isSome) :
    (findByKey key (upsertBy key rows x) k).isSome := by
  by_cases hk : k = key x
  · subst hk; rw [findByKey_upsertBy_self]; rfl
  · rw [findByKey_upsertBy_other key rows x k hk]; exact h

theorem keysNodup_upsertBy (key : α → κ) (rows : List α) (x : α)
    (h : (rows.map key).Nodup) : ((upsertBy key rows x).map key).Nodup := by
  unfold upsertBy
  split
  case isTrue _ =>
    have : (rows.map (fun r => if key r = key x then x else r)).map key
        = rows.map key := by
      simp only [List.map_map]
      apply List.map_congr_left
      intro r _
      by_cases hr : key r = key x <;> simp [hr]
    rw [this]; exact h
  case isFalse hany =>
    simp only [List.any_eq_true, decide_eq_true_eq, not_exists, not_and] at hany
    rw [List.map_append]
    simp only [List.map_cons, List.map_nil]
    rw [List.nodup_append]
    refine ⟨h, List.nodup_singleton _, ?_⟩
    intro a ha
    simp only [List.mem_map] at ha
    obtain ⟨r, hr, rfl⟩ := ha
    simp only [List.mem_singleton]
    intro hc
    exact hany r hr hc

end Upsert

/-- In a list whose keys are pairwise distinct, `find?` by the key of a
member returns exactly that member. -/
theorem nodup_find?_eq {α : Type} {κ : Type} [DecidableEq κ] (key : α → κ)
    {l : List α} {x : α} (hnd : (l.map key).Nodup) (hx : x ∈ l) :
    l.find? (fun r => decide (key r = key x)) = some x := by
  induction l with
  | nil => cases hx
  | cons y ys ih =>
    simp only [List.map_cons, List.nodup_cons] at hnd
    rcases List.mem_cons.mp hx with rfl | hmem
    · simp [List.find?_cons]
    · by_cases hy : key y = key x
      · exfalso
        exact hnd.1 ((hy ▸ List.mem_map_of_mem key hmem))
      · simp only [List.find?_cons, decide_eq_false hy]
        exact ih hnd.2 hmem

/-- After running a list of transaction statements, a key's row in a
table is the last row written at that key, or the original row if the
statements never wrote that key.  Stated generically over any table
`proj` whose statement-effect is an upsert (`hcompat`). -/
theorem findByKey_foldl_ops {α : Type} {κ : Type} [DecidableEq κ]
    (proj : DBState → List α) (key : α → κ) (write? : TxOp → Option α)
    (hwrite : ∀ st op r, write? op = some r →
      proj (applyOp st op) = upsertBy key (proj st) r)
    (hskip : ∀ st op, write? op = none → proj (applyOp st op) = proj st)
    (ops : List TxOp) (st : DBState) (k : κ) :
    findByKey key (proj (ops.foldl applyOp st)) k =
      (((ops.filterMap write?).reverse.find? (fun r => decide (key r = k))).or
        (findByKey key (proj st) k)) := by
  induction ops generalizing st with
  | nil => simp
  | cons op rest ih =>
    rw [List.foldl_cons, ih]
    cases hw : write? op with
    | none =>
      rw [hskip st op hw, List.filterMap_cons, hw]
    | some r =>
      rw [hwrite st op r hw, List.filterMap_cons, hw, List.reverse_cons,
        List.find?_append, Option.or_assoc]
      congr 1
      by_cases hk : key r = k
      · subst hk
        rw [findByKey_upsertBy_self]
        simp [List.find?]
      · rw [findByKey_upsertBy_other key (proj st) r k (fun h => hk h.symm)]
        simp [List.find?, decide_eq_false hk]

/-- Running transaction statements preserves distinctness of a table's
keys. -/
theorem keysNodup_foldl_ops {α : Type} {κ : Type} [DecidableEq κ]
    (proj : DBState → List α) (key : α → κ) (write? : TxOp → Option α)
    (hwrite : ∀ st op r, write? op = some r →
      proj (applyOp st op) = upsertBy key (proj st) r)
    (hskip : ∀ st op, write? op = none → proj (applyOp st op) = proj st)
    (ops : List TxOp) (st : DBState)
    (h : ((proj st).map key).Nodup) :
    ((proj (ops.foldl applyOp st)).map key).Nodup := by
  induction ops generalizing st with
  | nil => simpa using h
  | cons op rest ih =>
    rw [List.foldl_cons]
    apply ih
    cases hw : write? op with
    | none => rw [hskip st op hw]; exact h
    | some r => rw [hwrite st op r hw]; exact keysNodup_upsertBy key (proj st) r h

theorem servers_applyOp_write (st : DBState) (op : TxOp) (r : Server)
    (h : serverWrite? op = some r) :
    (applyOp st op).servers = upsertBy Server.name st.servers r := by
  cases op <;> simp_all [serverWrite?, applyOp]

theorem servers_applyOp_skip (st : DBState) (op : TxOp)
    (h : serverWrite? op = none) :
    (applyOp st op).servers = st.servers := by
  cases op <;> simp_all [serverWrite?, applyOp]

theorem projects_applyOp_write (st : DBState) (op : TxOp) (r : ProjectRow)
    (h : projectWrite? op = some r) :
    (applyOp st op).projects = upsertBy ProjectRow.name st.projects r := by
  cases op <;> simp_all [projectWrite?, applyOp]

theorem projects_applyOp_skip (st : DBState) (op : TxOp)
    (h : projectWrite? op = none) :
    (applyOp st op).projects = st.projects := by
  cases op <;> simp_all [projectWrite?, applyOp]

theorem environments_applyOp_write (st : DBState) (op : TxOp) (r : EnvRow)
    (h : envWrite? op = some r) :
    (applyOp st op).environments = upsertBy envKey st.environments r := by
  cases op <;> simp_all [envWrite?, applyOp]

theorem environments_applyOp_skip (st : DBState) (op : TxOp)
    (h : envWrite? op = none) :
    (applyOp st op).environments = st.environments := by
  cases op <;> simp_all [envWrite?, applyOp]

theorem credentials_applyOp (st : DBState) (op : TxOp) :
    (applyOp st op).credentials = st.credentials := by
  cases op <;> rfl

theorem peonKeys_applyOp (st : DBState) (op : TxOp) :
    (applyOp st op).peonKeys = st.peonKeys := by
  cases op <;> rfl

/-- The server rows written by `SaveConfig`'s statements are exactly the
config's servers, in order. -/
theorem filterMap_serverWrite_txSteps (cfg : Config) :
    (txSteps cfg).filterMap serverWrite? = cfg.servers := by
  unfold txSteps
  rw [List.filterMap_append]
  have h1 : (cfg.servers.map (fun srv => TxOp.serverUpsert srv)).filterMap
      serverWrite? = cfg.servers := by
    induction cfg.servers with
    | nil => rfl
    | cons s ss ih => simpa [List.filterMap_cons, serverWrite?] using ih
  have h2 : ∀ ps : List Project, (ps.flatMap (fun p =>
      TxOp.projectUpsert ⟨p.name, p.repo, p.server⟩ ::
      TxOp.selectProjectId p.name ::
      (p.environments.map (fun e => TxOp.envUpsert (envRowOf p.name e.1 e.2))))).filterMap
        serverWrite? = [] := by
    intro ps
    induction ps with
    | nil => rfl
    | cons p ps ih =>
      rw [List.flatMap_cons, List.filterMap_append]
      simp only [List.filterMap_cons, serverWrite?, ih, List.append_nil]
      induction p.environments with
      | nil => rfl
      | cons e es ihe => simp [List.filterMap_cons, serverWrite?]
  rw [h1, h2, List.append_nil]

/-- The project rows written by `SaveConfig`'s statements are exactly the
config's projects, in order. -/
theorem filterMap_projectWrite_txSteps (cfg : Config) :
    (txSteps cfg).filterMap projectWrite? =
      cfg.projects.map (fun p => (⟨p.name, p.repo, p.server⟩ : ProjectRow)) := by
  unfold txSteps
  rw [List.filterMap_append]
  have h1 : (cfg.servers.map (fun srv => TxOp.serverUpsert srv)).filterMap
      projectWrite? = [] := by
    induction cfg.servers with
    | nil => rfl
    | cons s ss ih => simp [List.filterMap_cons, projectWrite?]
  have h2 : ∀ ps : List Project, (ps.flatMap (fun p =>
      TxOp.projectUpsert ⟨p.name, p.repo, p.server⟩ ::
      TxOp.selectProjectId p.name ::
      (p.environments.map (fun e => TxOp.envUpsert (envRowOf p.name e.1 e.2))))).filterMap
        projectWrite? =
        ps.map (fun p => (⟨p.name, p.repo, p.server⟩ : ProjectRow)) := by
    intro ps
    induction ps with
    | nil => rfl
    | cons p ps ih =>
      rw [List.flatMap_cons, List.filterMap_append]
      simp only [List.filterMap_cons, projectWrite?, ih, List.map_cons]
      induction p.environments with
      | nil => rfl
      | cons e es ihe => simp [List.filterMap_cons, projectWrite?]
  rw [h1, h2, List.nil_append]

/-- The environment rows written by `SaveConfig`'s statements are exactly
the rows for every project's environment map, in order. -/
theorem filterMap_envWrite_txSteps (cfg : Config) :
    (txSteps cfg).filterMap envWrite? =
      cfg.projects.flatMap (fun p =>
        p.environments.map (fun e => envRowOf p.name e.1 e.2)) := by
  unfold txSteps
  rw [List.filterMap_append]
  have h1 : (cfg.servers.map (fun srv => TxOp.serverUpsert srv)).filterMap
      envWrite? = [] := by
    induction cfg.servers with
    | nil => rfl
    | cons s ss ih => simp [List.filterMap_cons, envWrite?]
  have h2 : ∀ ps : List Project, (ps.flatMap (fun p =>
      TxOp.projectUpsert ⟨p.name, p.repo, p.server⟩ ::
      TxOp.selectProjectId p.name ::
      (p.environments.map (fun e => TxOp.envUpsert (envRowOf p.name e.1 e.2))))).filterMap
        envWrite? =
        ps.flatMap (fun p =>
          p.environments.map (fun e => envRowOf p.name e.1 e.2)) := by
    intro ps
    induction ps with
    | nil => rfl
    | cons p ps ih =>
      rw [List.flatMap_cons, List.filterMap_append, List.flatMap_cons]
      simp only [List.filterMap_cons, envWrite?, ih]
      congr 1
      induction p.environments with
      | nil => rfl
      | cons e es ihe => simpa [List.filterMap_cons, envWrite?] using ihe
  rw [h1, h2, List.nil_append]

/-- A successful transaction run applies exactly the statement list's
effects in order. -/
theorem runTx_eq_foldl (failsAt : Nat → Bool) (ops : List TxOp) :
    ∀ (st : DBState) (i : Nat) (stFinal : DBState),
      runTx failsAt st ops i = some stFinal →
      stFinal = ops.foldl applyOp st := by
  induction ops with
  | nil =>
    intro st i stFinal h
    simp only [runTx] at h
    simpa [List.foldl_nil] using h.symm
  | cons op rest ih =>
    intro st i stFinal h
    simp only [runTx] at h
    split at h
    · cases h
    · exact ih (applyOp st op) (i + 1) stFinal h

/-! ## Port allocation (`SuggestPort`, package project)

`SuggestPort` builds a membership set from `usedPorts` and scans
`for port := 3000; ; port++` for the first port not in the set. -/

theorem length_filter_mono {α : Type} (l : List α) (p q : α → Bool)
    (h : ∀ a, p a = true → q a = true) :
    (l.filter p).length ≤ (l.filter q).length := by
  induction l with
  | nil => simp
  | cons a as ih =>
    by_cases hp : p a = true
    · simp only [List.filter_cons, hp, h a hp, if_pos, List.length_cons]
      omega
    · by_cases hq : q a = true
      · simp only [List.filter_cons, hp, if_neg, Bool.false_eq_true,
          not_false_eq_true, hq, if_pos, List.length_cons]
        omega
      · simp only [List.filter_cons, hp, hq, if_neg, Bool.false_eq_true,
          not_false_eq_true]
        exact ih

theorem length_filter_lt_of_mem (used : List Int) (port : Int)
    (h : port ∈ used) :
    (used.filter (fun u => decide (port + 1 ≤ u))).length <
      (used.filter (fun u => decide (port ≤ u))).length := by
  induction used with
  | nil => cases h
  | cons u rest ih =>
    rcases List.mem_cons.mp h with rfl | hmem
    · have h1 : ¬ (decide (port + 1 ≤ port) = true) := by simp
      have h2 : decide (port ≤ port) = true := by simp
      simp only [List.filter_cons]
      rw [if_neg h1, if_pos h2, List.length_cons]
      have := length_filter_mono rest (fun v => decide (port + 1 ≤ v))
        (fun v => decide (port ≤ v)) (by intro a ha; simp at ha ⊢; omega)
      omega
    · have hrest := ih hmem
      by_cases h1 : port + 1 ≤ u
      · have h2 : port ≤ u := by omega
        simp only [List.filter_cons, decide_eq_true h1, decide_eq_true h2,
          if_pos, List.length_cons]
        omega
      · simp only [List.filter_cons, decide_eq_false h1, if_neg,
          Bool.false_eq_true, not_false_eq_true]
        by_cases h2 : port ≤ u
        · simp only [decide_eq_true h2, if_pos, List.length_cons]
          omega
        · simp only [decide_eq_false h2, if_neg, Bool.false_eq_true,
            not_false_eq_true]
          omega

theorem suggestFrom_spec : ∀ (n : Nat) (used : List Int) (port : Int),
    (used.filter (fun u => decide (port ≤ u))).length ≤ n →
    suggestFrom used port ∉ used ∧ port ≤ suggestFrom used port ∧
      ∀ m : Int, port ≤ m → m ∉ used → suggestFrom used port ≤ m := by
  intro n
  induction n with
  | zero =>
    intro used port hn
    have hnotmem : port ∉ used := by
      intro hmem
      have : port ∈ used.filter (fun u => decide (port ≤ u)) :=
        List.mem_filter.mpr ⟨hmem, by simp⟩
      have := List.length_pos.mpr (List.ne_nil_of_mem this)
      omega
    rw [suggestFrom, if_neg hnotmem]
    exact ⟨hnotmem, le_refl port, fun m hm _ => hm⟩
  | succ n ih =>
    intro used port hn
    by_cases hmem : port ∈ used
    · have hlt := length_filter_lt_of_mem used port hmem
      have hn' : (used.filter (fun u => decide (port + 1 ≤ u))).length ≤ n := by
        omega
      obtain ⟨h1, h2, h3⟩ := ih used (port + 1) hn'
      rw [suggestFrom, if_pos hmem]
      refine ⟨h1, by omega, ?_⟩
      intro m hm hmnot
      have : m ≠ port := fun heq => hmnot (heq ▸ hmem)
      exact h3 m (by omega) hmnot
    · rw [suggestFrom, if_neg hmem]
      exact ⟨hmem, le_refl port, fun m hm _ => hm⟩

theorem dropThroughDot_length :
    ∀ (c rest : List Char), dropThroughDot c = some rest →
      rest.length < c.length := by
  intro c
  induction c with
  | nil => intro rest h; cases h
  | cons ch tl ih =>
    intro rest h
    unfold dropThroughDot at h
    split at h
    · cases h
      simp
    · have := ih rest h
      simp only [List.length_cons]
      omega

/-- The loop returns the first queried candidate that has NS records. -/
theorem rootDomainAux_eq_find (lookupNS : String → Option (List String)) :
    ∀ (n : Nat) (c : List Char), c.length ≤ n →
    rootDomainAux lookupNS c =
      ((stripSeq c).find? (fun s => nsOk lookupNS (String.mk s))).map
        String.mk := by
  intro n
  induction n with
  | zero =>
    intro c hc
    have : c = [] := List.length_eq_zero.mp (by omega)
    subst this
    rw [rootDomainAux, stripSeq]
    simp only [List.find?_cons]
    cases hok : nsOk lookupNS (String.mk []) <;>
      simp [hok, dropThroughDot, List.find?]
  | succ n ih =>
    intro c hc
    rw [rootDomainAux, stripSeq]
    simp only [List.find?_cons]
    cases hok : nsOk lookupNS (String.mk c)
    · simp only [Bool.false_eq_true, not_false_eq_true]
      cases hd : dropThroughDot c with
      | none => simp [List.find?]
      | some rest =>
        by_cases hrest : rest = []
        · simp [hrest, List.find?]
        · by_cases hdot : rest.contains '.'
          · simp only [hrest, if_neg, hdot, if_pos, reduceIte]
            have hlen := dropThroughDot_length c rest hd
            exact ih rest (by omega)
          · have hdot2 : ¬ ('.' ∈ rest) := by simpa using hdot
            simp [hrest, hdot2, List.find?]
    · simp [hok]

theorem dropThroughDot_of_dotFree (l : List Char) (hl : '.' ∉ l) :
    dropThroughDot l = none := by
  induction l with
  | nil => rfl
  | cons ch tl ih =>
    simp only [List.mem_cons, not_or] at hl
    unfold dropThroughDot
    rw [if_neg (fun h => hl.1 h.symm)]
    exact ih hl.2

theorem dropThroughDot_append (l r : List Char) (hl : '.' ∉ l) :
    dropThroughDot (l ++ '.' :: r) = some r := by
  induction l with
  | nil => simp [dropThroughDot]
  | cons ch tl ih =>
    simp only [List.mem_cons, not_or] at hl
    simp only [List.cons_append]
    unfold dropThroughDot
    rw [if_neg (fun h => hl.1 h.symm)]
    exact ih hl.2

theorem joinLabels_ne_nil (ls : List (List Char)) (h : WFLabels ls) :
    joinLabels ls ≠ [] := by
  obtain ⟨hne, hlab⟩ := h
  match ls with
  | [] => exact absurd rfl hne
  | [l] =>
    simpa [joinLabels] using (hlab l (by simp)).1
  | l :: m :: rest =>
    simp only [joinLabels]
    intro hc
    have := (hlab l (by simp)).1
    exact this (List.append_eq_nil.mp hc).1

theorem contains_dot_joinLabels (ls : List (List Char)) (h : WFLabels ls) :
    (joinLabels ls).contains '.' = decide (2 ≤ ls.length) := by
  obtain ⟨hne, hlab⟩ := h
  match ls with
  | [] => exact absurd rfl hne
  | [l] =>
    have hns : '.' ∉ l := (hlab l (by simp)).2
    simp only [joinLabels, List.length_singleton]
    rw [show decide (2 ≤ 1) = false from rfl]
    simpa using hns
  | l :: m :: rest =>
    simp only [joinLabels, List.length_cons]
    rw [show decide (2 ≤ rest.length + 1 + 1) = true from by simp]
    simp

/-- Stripping to the first dot of a joined label list removes the first
label. -/
theorem dropThroughDot_joinLabels (l : List Char) (ls : List (List Char))
    (hwf : WFLabels (l :: ls)) :
    dropThroughDot (joinLabels (l :: ls)) =
      if ls = [] then none else some (joinLabels ls) := by
  obtain ⟨_, hlab⟩ := hwf
  have hl : '.' ∉ l := (hlab l (by simp)).2
  match ls with
  | [] => simpa [joinLabels] using dropThroughDot_of_dotFree l hl
  | m :: rest =>
    simp only [joinLabels]
    rw [dropThroughDot_append _ _ hl]
    simp

theorem WFLabels_tail (l : List Char) (rest : List (List Char))
    (h : WFLabels (l :: rest)) (hne : rest ≠ []) : WFLabels rest :=
  ⟨hne, fun x hx => h.2 x (List.mem_cons_of_mem l hx)⟩

/-- On a well-formed label list, the candidate sequence is exactly the
tails of the label list down to two labels. -/
theorem stripSeq_joinLabels (ls : List (List Char)) (hwf : WFLabels ls) :
    stripSeq (joinLabels ls) = (nsTails ls).map joinLabels := by
  induction ls with
  | nil => exact absurd rfl hwf.1
  | cons l rest ih =>
    rw [stripSeq]
    rcases List.eq_nil_or_concat rest with hrest | _
    · subst hrest
      rw [dropThroughDot_joinLabels l [] hwf]
      simp [nsTails]
    · have hrestne : rest ≠ [] := by
        rintro rfl
        simp_all
      have hwfrest := WFLabels_tail l rest hwf hrestne
      rw [dropThroughDot_joinLabels l rest hwf, if_neg hrestne]
      dsimp only
      rw [if_neg (joinLabels_ne_nil rest hwfrest)]
      rw [contains_dot_joinLabels rest hwfrest]
      by_cases hlen : 2 ≤ rest.length
      · rw [if_pos (by simpa using hlen)]
        rw [ih hwfrest]
        simp [nsTails, hrestne, hlen]
      · rw [if_neg (by simpa using hlen)]
        cases rest with
        | nil => exact absurd rfl hrestne
        | cons m r2 =>
          have : r2 = [] := by
            simp only [List.length_cons] at hlen
            have : r2.length = 0 := by omega
            exact List.length_eq_zero.mp this
          subst this
          simp [nsTails]

/-- `RootDomain` on a well-formed label list returns the first (longest)
tail, down to two labels, whose joined suffix has NS records. -/
theorem RootDomain_joinLabels (lookupNS : String → Option (List String))
    (ls : List (List Char)) (hwf : WFLabels ls) :
    RootDomain lookupNS (String.mk (joinLabels ls)) =
      ((nsTails ls).find?
        (fun t => nsOk lookupNS (String.mk (joinLabels t)))).map
          (fun t => String.mk (joinLabels t)) := by
  unfold RootDomain
  rw [rootDomainAux_eq_find lookupNS (joinLabels ls).length _ (le_refl _)]
  rw [stripSeq_joinLabels ls hwf]
  rw [List.find?_map]
  rw [Option.map_map]
  rfl

/-! ## Further upsert lemmas (row counting) -/

theorem mem_upsertBy_self {α : Type} {κ : Type} [DecidableEq κ]
    (key : α → κ) (rows : List α) (x : α) : x ∈ upsertBy key rows x :=
  List.mem_of_find?_eq_some (findByKey_upsertBy_self key rows x)

theorem countP_upsertBy_self {α : Type} {κ : Type} [DecidableEq κ]
    (key : α → κ) (rows : List α) (x : α) :
    (upsertBy key rows x).countP (fun r => decide (key r = key x)) =
      if rows.any (fun r => decide (key r = key x)) then
        rows.countP (fun r => decide (key r = key x))
      else rows.countP (fun r => decide (key r = key x)) + 1 := by
  unfold upsertBy
  split
  case isTrue h =>
    rw [List.countP_map]
    apply List.countP_congr
    intro r _
    by_cases hr : key r = key x <;> simp [hr, Function.comp]
  case isFalse h =>
    rw [List.countP_append]
    simp [List.countP_cons]

theorem any_upsertBy_self {α : Type} {κ : Type} [DecidableEq κ]
    (key : α → κ) (rows : List α) (x : α) :
    (upsertBy key rows x).any (fun r => decide (key r = key x)) = true :=
  List.any_eq_true.mpr ⟨x, mem_upsertBy_self key rows x, by simp⟩

/-! ## Claims about the credential store -/

/-- C6: for all (service, name, key, value), `SetCredential` followed by
`GetCredential` returns the value; a second `SetCredential` on the same
triple overwrites the value without creating a duplicate row (with the
store satisfying the table's UNIQUE constraint: at most one row per
triple), so the subsequent `GetCredential` returns the new value. -/
theorem claim_C6_setCredential_roundtrip
    (st : DBState) (service name key v1 v2 : String)
    (huniq : st.credentials.countP
      (fun c => decide (credKey c = (service, name, key))) ≤ 1) :
    GetCredential (SetCredential st service name key v1) service name key
        = some v1 ∧
    GetCredential (SetCredential (SetCredential st service name key v1)
        service name key v2) service name key = some v2 ∧
    (SetCredential st service name key v1).credentials.countP
        (fun c => decide (credKey c = (service, name, key))) = 1 ∧
    (SetCredential (SetCredential st service name key v1) service name key
        v2).credentials.countP
        (fun c => decide (credKey c = (service, name, key))) = 1 := by
  have hget : ∀ (s0 : DBState) (v : String),
      GetCredential (SetCredential s0 service name key v) service name key
        = some v := by
    intro s0 v
    unfold GetCredential SetCredential
    simp only
    rw [show (service, name, key) = credKey ⟨service, name, key, v⟩ from rfl]
    rw [findByKey_upsertBy_self]
    rfl
  have hcount : ∀ (s0 : DBState) (v : String),
      s0.credentials.countP
        (fun c => decide (credKey c = (service, name, key))) ≤ 1 →
      (SetCredential s0 service name key v).credentials.countP
        (fun c => decide (credKey c = (service, name, key))) = 1 := by
    intro s0 v h0
    unfold SetCredential
    simp only
    have hc := countP_upsertBy_self credKey s0.credentials
      ⟨service, name, key, v⟩
    rw [show credKey (⟨service, name, key, v⟩ : Credential)
      = (service, name, key) from rfl] at hc
    rw [hc]
    split
    case isTrue hany =>
      obtain ⟨c, hcmem, hck⟩ := List.any_eq_true.mp hany
      have hpos : 1 ≤ s0.credentials.countP
          (fun c => decide (credKey c = (service, name, key))) := by
        rw [Nat.one_le_iff_ne_zero]
        intro hzero
        rw [List.countP_eq_zero] at hzero
        exact hzero c hcmem hck
      omega
    case isFalse hany =>
      have h00 : s0.credentials.countP
          (fun c => decide (credKey c = (service, name, key))) = 0 := by
        rw [List.countP_eq_zero]
        intro a ha
        simp only [List.any_eq_true, not_exists, not_and] at hany
        exact hany a ha
      omega
  refine ⟨hget st v1, hget _ v2, hcount st v1 huniq, ?_⟩
  exact hcount _ v2 (by rw [hcount st v1 huniq])

/-- Witness for C6 on a concrete empty store. -/
theorem claim_C6_witness :
    GetCredential (SetCredential ⟨[], [], [], [], []⟩ "svc" "nm" "k" "a")
        "svc" "nm" "k" = some "a" ∧
    GetCredential (SetCredential (SetCredential ⟨[], [], [], [], []⟩
        "svc" "nm" "k" "a") "svc" "nm" "k" "b") "svc" "nm" "k" = some "b" ∧
    (SetCredential ⟨[], [], [], [], []⟩ "svc" "nm" "k" "a").credentials.countP
        (fun c => decide (credKey c = ("svc", "nm", "k"))) = 1 ∧
    (SetCredential (SetCredential ⟨[], [], [], [], []⟩ "svc" "nm" "k" "a")
        "svc" "nm" "k" "b").credentials.countP
        (fun c => decide (credKey c = ("svc", "nm", "k"))) = 1 :=
  claim_C6_setCredential_roundtrip ⟨[], [], [], [], []⟩ "svc" "nm" "k" "a" "b"
    (by decide)

/-- C7: `DeleteCredential` removes every key stored under the service and
name, so any subsequent `GetCredential` under them is not-found; and it
is a no-op (returning success) when no such credential exists. -/
theorem claim_C7_deleteCredential_removes_all
    (st : DBState) (service name : String) :
    (∀ key, GetCredential (DeleteCredential st service name)
        service name key = none) ∧
    ((∀ c ∈ st.credentials, ¬(c.service = service ∧ c.name = name)) →
      DeleteCredential st service name = st) := by
  constructor
  · intro key
    unfold GetCredential DeleteCredential findByKey
    simp only
    rw [List.find?_eq_none.mpr]
    · rfl
    · intro x hx
      rw [List.mem_filter] at hx
      obtain ⟨_, hcond⟩ := hx
      simp only [Bool.not_eq_true', Bool.and_eq_false_iff,
        decide_eq_false_iff_not] at hcond
      intro hk
      rw [decide_eq_true_eq] at hk
      unfold credKey at hk
      have hs : x.service = service := congrArg Prod.fst hk
      have hn : x.name = name := congrArg Prod.fst (congrArg Prod.snd hk)
      rcases hcond with h | h
      · exact h hs
      · exact h hn
  · intro habs
    unfold DeleteCredential
    have hfix : st.credentials.filter
        (fun c => !(decide (c.service = service) && decide (c.name = name)))
          = st.credentials := by
      rw [List.filter_eq_self]
      intro a ha
      have := habs a ha
      simp only [Bool.not_eq_true', Bool.and_eq_false_iff,
        decide_eq_false_iff_not]
      by_cases hs : a.service = service
      · exact Or.inr (fun hn => this ⟨hs, hn⟩)
      · exact Or.inl hs
    rw [hfix]

/-- Witness for C7 on a concrete store holding one unrelated credential. -/
theorem claim_C7_witness :
    GetCredential (DeleteCredential ⟨[⟨"other", "x", "y", "z"⟩], [], [], [], []⟩
        "svc" "nm") "svc" "nm" "k" = none ∧
    DeleteCredential ⟨[⟨"other", "x", "y", "z"⟩], [], [], [], []⟩ "svc" "nm"
        = ⟨[⟨"other", "x", "y", "z"⟩], [], [], [], []⟩ :=
  ⟨(claim_C7_deleteCredential_removes_all _ "svc" "nm").1 "k",
    (claim_C7_deleteCredential_removes_all _ "svc" "nm").2 (by decide)⟩

/-! ## Claim about `SaveConfig` atomicity -/

/-- C5: `SaveConfig` is atomic: whatever statements fail, either the
transaction commits and every server and project/environment upsert of
the struct is applied (the committed state is exactly `SaveConfig`'s
all-upserts-applied state), or the transaction rolls back and the
visible store state is exactly the state before the call. -/
theorem claim_C5_saveConfig_atomic (failsAt : Nat → Bool) (st : DBState)
    (cfg : Config) :
    SaveConfigTx failsAt st cfg = (SaveConfig st cfg, true) ∨
    SaveConfigTx failsAt st cfg = (st, false) := by
  unfold SaveConfigTx
  cases h : runTx failsAt st (txSteps cfg) 0 with
  | none => exact Or.inr rfl
  | some s =>
    left
    rw [runTx_eq_foldl failsAt (txSteps cfg) st 0 s h]
    rfl

/-! ## Claim about `RootDomain` -/

/-- C9: `RootDomain`, with the nameserver lookup as an oracle, strips
leftmost labels and returns the first (longest) remaining suffix the
oracle reports NS records for, never querying below two labels and
failing when no queried suffix has NS records; the input itself is
returned when it already has NS records, and
`RootDomain "sub.example.com"` is `"example.com"` when `example.com` has
nameservers and `sub.example.com` does not. -/
theorem claim_C9_rootDomain :
    (∀ (lookupNS : String → Option (List String)) (ls : List (List Char)),
      WFLabels ls →
      RootDomain lookupNS (String.mk (joinLabels ls)) =
        ((nsTails ls).find?
          (fun t => nsOk lookupNS (String.mk (joinLabels t)))).map
            (fun t => String.mk (joinLabels t))) ∧
    (∀ (lookupNS : String → Option (List String)) (ls : List (List Char)),
      WFLabels ls →
      (∀ t ∈ nsTails ls, nsOk lookupNS (String.mk (joinLabels t)) = false) →
      RootDomain lookupNS (String.mk (joinLabels ls)) = none) ∧
    (∀ (lookupNS : String → Option (List String)) (d : String),
      nsOk lookupNS d = true → RootDomain lookupNS d = some d) ∧
    (∀ lookupNS : String → Option (List String),
      nsOk lookupNS "example.com" = true →
      nsOk lookupNS "sub.example.com" = false →
      RootDomain lookupNS "sub.example.com" = some "example.com") := by
  refine ⟨RootDomain_joinLabels, ?_, ?_, ?_⟩
  · intro lookupNS ls hwf hall
    rw [RootDomain_joinLabels lookupNS ls hwf]
    rw [List.find?_eq_none.mpr]
    · rfl
    · intro t ht
      rw [hall t ht]
      simp
  · intro lookupNS d hok
    unfold RootDomain
    rw [rootDomainAux]
    rw [show String.mk d.data = d from rfl]
    rw [if_pos hok]
  · intro lookupNS h1 h2
    have hwf : WFLabels ["sub".data, "example".data, "com".data] := by
      constructor
      · simp
      · decide
    have hchar := RootDomain_joinLabels lookupNS
      ["sub".data, "example".data, "com".data] hwf
    rw [show String.mk (joinLabels ["sub".data, "example".data, "com".data])
      = "sub.example.com" from by decide] at hchar
    rw [hchar]
    rw [show nsTails ["sub".data, "example".data, "com".data]
      = [["sub".data, "example".data, "com".data],
         ["example".data, "com".data]] from by decide]
    rw [List.find?_cons]
    rw [show String.mk (joinLabels ["sub".data, "example".data, "com".data])
      = "sub.example.com" from by decide, h2]
    rw [List.find?_cons]
    rw [show String.mk (joinLabels ["example".data, "com".data])
      = "example.com" from by decide, h1]
    simp
    decide

/-- Witness for C9 with a concrete oracle giving `example.com` two
nameservers and everything else none. -/
theorem claim_C9_witness :
    RootDomain
      (fun s => if s = "example.com" then some ["ns1.x", "ns2.x"] else none)
      "sub.example.com" = some "example.com" :=
  claim_C9_rootDomain.2.2.2
    (fun s => if s = "example.com" then some ["ns1.x", "ns2.x"] else none)
    (by decide) (by decide)

/-! ## Claim about `SuggestPort` -/

/-- C8: `SuggestPort` is a pure total function returning the lowest port
at least 3000 not in the used list, with the three documented examples. -/
theorem claim_C8_suggestPort :
    (∀ used : List Int, SuggestPort used ∉ used ∧ 3000 ≤ SuggestPort used ∧
      ∀ m : Int, 3000 ≤ m → m ∉ used → SuggestPort used ≤ m) ∧
    SuggestPort [] = 3000 ∧ SuggestPort [3000, 3001] = 3002 ∧
    SuggestPort [3001] = 3000 := by
  refine ⟨?_, ?_, ?_, ?_⟩
  · intro used
    exact suggestFrom_spec
      ((used.filter (fun u => decide ((3000 : Int) ≤ u))).length) used 3000
      (le_refl _)
  · unfold SuggestPort
    rw [suggestFrom, if_neg (by simp)]
  · unfold SuggestPort
    rw [suggestFrom, if_pos (by decide), suggestFrom, if_pos (by decide),
      suggestFrom, if_neg (by decide)]
    norm_num
  · unfold SuggestPort
    rw [suggestFrom, if_neg (by decide)]

/-- Witness for C8's minimality clause at a concrete list. -/
theorem claim_C8_witness :
    SuggestPort [3000] ∉ ([3000] : List Int) ∧
    (3000 : Int) ≤ SuggestPort [3000] ∧ SuggestPort [3000] ≤ 3001 := by
  obtain ⟨h1, h2, h3⟩ := claim_C8_suggestPort.1 [3000]
  exact ⟨h1, h2, h3 3001 (by norm_num) (by decide)⟩

set_option maxHeartbeats 2000000 in
/-- A successful `setupTail` run appends exactly `setupTailEvents` and
writes exactly the final config save. -/
theorem setupTail_success (o : SetupOracles) (st : DBState)
    (p : SetupParams) (server : Server) (provName : String)
    (tr4 trOut : List Event) (stFinal : DBState)
    (h : setupTail o st p server provName tr4 = (trOut, stFinal, none)) :
    trOut = tr4 ++ setupTailEvents o p server ∧
      stFinal = setupFinalStore st p provName := by
  simp only [setupTail] at h
  repeat' split at h
  all_goals injection h with htr hrest
  all_goals injection hrest with hst herr
  all_goals
    first
      | (exact Option.noConfusion herr)
      | (subst htr
         subst hst
         exact ⟨by simp_all [setupTailEvents, List.append_assoc], rfl⟩)

set_option maxHeartbeats 2000000 in
/-- A successful `setupStep2` run resolved a provider, appends exactly
`setupStep2Events`, and writes exactly the final config save. -/
theorem setupStep2_success (o : SetupOracles) (st : DBState)
    (p : SetupParams) (server : Server) (tr1 trOut : List Event)
    (stFinal : DBState)
    (h : setupStep2 o st p server tr1 = (trOut, stFinal, none)) :
    ∃ provName, o.providerName = some provName ∧
      trOut = tr1 ++ setupStep2Events o st p server ∧
      stFinal = setupFinalStore st p provName := by
  simp only [setupStep2] at h
  repeat' split at h
  all_goals
    first
      | (injection h with htr hrest
         injection hrest with hst herr
         exact Option.noConfusion herr)
      | (obtain ⟨htr, hst⟩ := setupTail_success _ _ _ _ _ _ _ _ h
         subst htr
         exact ⟨_, by assumption,
           by simp_all [setupStep2Events, List.append_assoc], hst⟩)

set_option maxHeartbeats 2000000 in
/-- C1/C2/C4 backbone: a successful `Setup` run resolved a provider,
emits exactly the success trace, and its only store write is the final
config save. -/
theorem setup_success (o : SetupOracles) (st : DBState) (p : SetupParams)
    (tr : List Event) (stFinal : DBState)
    (h : Setup o st p = (tr, stFinal, none)) :
    ∃ provName, o.providerName = some provName ∧
      tr = setupSuccessTrace o st p ∧
      stFinal = setupFinalStore st p provName := by
  simp only [Setup] at h
  repeat' split at h
  all_goals
    first
      | (injection h with htr hrest
         injection hrest with hst herr
         exact Option.noConfusion herr)
      | (obtain ⟨provName, hprov, htr, hst⟩ := setupStep2_success _ _ _ _ _ _ _ h
         subst htr
         exact ⟨provName, hprov,
           by simp_all [setupSuccessTrace, setupServer, List.append_assoc],
           hst⟩)

set_option maxHeartbeats 2000000 in
/-- A successful `deployTail` run appends exactly `deployTailEvents` and
writes exactly the final config save. -/
theorem deployTail_success (o : DeployOracles) (st : DBState)
    (p : DeployParams) (server : Server) (provName : String)
    (tr2 trOut : List Event) (stFinal : DBState)
    (h : deployTail o st p server provName tr2 = (trOut, stFinal, none)) :
    trOut = tr2 ++ deployTailEvents o p server ∧
      stFinal = deployFinalStore st p provName := by
  simp only [deployTail] at h
  repeat' split at h
  all_goals injection h with htr hrest
  all_goals injection hrest with hst herr
  all_goals
    first
      | (exact Option.noConfusion herr)
      | (subst htr
         subst hst
         exact ⟨by simp_all [deployTailEvents, List.append_assoc], rfl⟩)

set_option maxHeartbeats 2000000 in
/-- A successful `deployStep2` run resolved a provider, appends exactly
`deployStep2Events`, and writes exactly the final config save. -/
theorem deployStep2_success (o : DeployOracles) (st : DBState)
    (p : DeployParams) (server : Server) (tr1 trOut : List Event)
    (stFinal : DBState)
    (h : deployStep2 o st p server tr1 = (trOut, stFinal, none)) :
    ∃ provName, o.providerName = some provName ∧
      trOut = tr1 ++ deployStep2Events o st p server ∧
      stFinal = deployFinalStore st p provName := by
  simp only [deployStep2] at h
  repeat' split at h
  all_goals
    first
      | (injection h with htr hrest
         injection hrest with hst herr
         exact Option.noConfusion herr)
      | (obtain ⟨htr, hst⟩ := deployTail_success _ _ _ _ _ _ _ _ h
         subst htr
         exact ⟨_, by assumption,
           by simp_all [deployStep2Events, List.append_assoc], hst⟩)

set_option maxHeartbeats 2000000 in
/-- C1/C2/C10 backbone: a successful `Deploy` run resolved a provider,
emits exactly the success trace, and its only store write is the final
config save. -/
theorem deploy_success (o : DeployOracles) (st : DBState)
    (p : DeployParams) (tr : List Event) (stFinal : DBState)
    (h : Deploy o st p = (tr, stFinal, none)) :
    ∃ provName, o.providerName = some provName ∧
      tr = deploySuccessTrace o st p ∧
      stFinal = deployFinalStore st p provName := by
  simp only [Deploy] at h
  repeat' split at h
  all_goals
    first
      | (injection h with htr hrest
         injection hrest with hst herr
         exact Option.noConfusion herr)
      | (obtain ⟨provName, hprov, htr, hst⟩ := deployStep2_success _ _ _ _ _ _ _ h
         subst htr
         exact ⟨provName, hprov,
           by simp_all [deploySuccessTrace, deployServer, List.append_assoc],
           hst⟩)

/-! ## Trace observations -/

@[simp]
theorem progressEvents_nil : progressEvents [] = [] := rfl

@[simp]
theorem progressEvents_cons_progress (s t : Nat) (m : String)
    (tr : List Event) :
    progressEvents (Event.progress s t m :: tr) =
      (s, t, m) :: progressEvents tr := rfl

@[simp]
theorem progressEvents_cons_act (s : Nat) (a : Action) (tr : List Event) :
    progressEvents (Event.act s a :: tr) = progressEvents tr := rfl

@[simp]
theorem progressEvents_append (l1 l2 : List Event) :
    progressEvents (l1 ++ l2) = progressEvents l1 ++ progressEvents l2 :=
  List.filterMap_append l1 l2 _

@[simp]
theorem progressEvents_act_map {α : Type} (s : Nat) (g : α → Action)
    (l : List α) :
    progressEvents (l.map (fun r => Event.act s (g r))) = [] := by
  induction l with
  | nil => rfl
  | cons r rest ih => simpa using ih

@[simp]
theorem dnsCalls_nil : dnsCalls [] = [] := rfl

@[simp]
theorem dnsCalls_cons_progress (s t : Nat) (m : String) (tr : List Event) :
    dnsCalls (Event.progress s t m :: tr) = dnsCalls tr := rfl

@[simp]
theorem dnsCalls_cons_dns (s : Nat) (c : DNSCall) (tr : List Event) :
    dnsCalls (Event.act s (.dns c) :: tr) = c :: dnsCalls tr := rfl

@[simp]
theorem dnsCalls_cons_act (s : Nat) (a : Action) (tr : List Event) :
    dnsCalls (Event.act s a :: tr) =
      (match a with
       | .dns c => c :: dnsCalls tr
       | _ => dnsCalls tr) := by
  cases a <;> rfl

@[simp]
theorem dnsCalls_append (l1 l2 : List Event) :
    dnsCalls (l1 ++ l2) = dnsCalls l1 ++ dnsCalls l2 :=
  List.filterMap_append l1 l2 _

@[simp]
theorem dnsCalls_dns_map {α : Type} (s : Nat) (g : α → DNSCall)
    (l : List α) :
    dnsCalls (l.map (fun r => Event.act s (.dns (g r)))) = l.map g := by
  induction l with
  | nil => rfl
  | cons r rest ih => simpa using ih

@[simp]
theorem Event.rank_progress (s t : Nat) (m : String) :
    Event.rank (.progress s t m) = 2 * s := rfl

@[simp]
theorem Event.rank_act (s : Nat) (a : Action) :
    Event.rank (.act s a) = 2 * s + 1 := rfl

theorem setupSuccessTrace_progress (o : SetupOracles) (st : DBState)
    (p : SetupParams) :
    progressEvents (setupSuccessTrace o st p) = setupProgressList := by
  unfold setupSuccessTrace setupStep2Events setupTailEvents setupProgressList
  repeat' split
  all_goals simp

theorem deploySuccessTrace_progress (o : DeployOracles) (st : DBState)
    (p : DeployParams) :
    progressEvents (deploySuccessTrace o st p) = deployProgressList := by
  unfold deploySuccessTrace deployStep2Events deployTailEvents
    deployProgressList
  repeat' split
  all_goals simp

@[simp]
theorem chain'_true {α : Type} (l : List α) :
    List.Chain' (fun _ _ => True) l := by
  induction l with
  | nil => trivial
  | cons a l2 ih =>
    cases l2 with
    | nil => exact List.chain'_singleton a
    | cons b l3 => exact List.chain'_cons.mpr ⟨trivial, ih⟩

set_option maxHeartbeats 1000000 in
theorem setupSuccessTrace_sorted (o : SetupOracles) (st : DBState)
    (p : SetupParams) :
    List.Pairwise (fun a b => Event.rank a ≤ Event.rank b)
      (setupSuccessTrace o st p) := by
  rw [← List.chain'_iff_pairwise]
  unfold setupSuccessTrace setupStep2Events setupTailEvents
  repeat' split
  all_goals
    simp [List.chain'_append, List.chain'_cons', List.chain'_map,
      List.getLast?_map, List.head?_append, List.head?_map]
  all_goals
    intro y hy
    rcases hy with ⟨a, ha, rfl⟩ | ⟨ha, rfl⟩ <;> simp

set_option maxHeartbeats 1000000 in
theorem deploySuccessTrace_sorted (o : DeployOracles) (st : DBState)
    (p : DeployParams) :
    List.Pairwise (fun a b => Event.rank a ≤ Event.rank b)
      (deploySuccessTrace o st p) := by
  rw [← List.chain'_iff_pairwise]
  unfold deploySuccessTrace deployStep2Events deployTailEvents
  repeat' split
  all_goals
    simp [List.chain'_append, List.chain'_cons', List.chain'_map,
      List.getLast?_map, List.head?_append, List.head?_map]
  all_goals
    intro y hy
    rcases hy with ⟨a, ha, rfl⟩ | ⟨ha, rfl⟩ <;> simp

/-! ## Store round-trip lemmas -/

theorem mem_upsertBy {α : Type} {κ : Type} [DecidableEq κ]
    (key : α → κ) (rows : List α) (x y : α)
    (hy : y ∈ upsertBy key rows x) :
    y = x ∨ (y ∈ rows ∧ key y ≠ key x) := by
  unfold upsertBy at hy
  split at hy
  case isTrue h =>
    obtain ⟨r, hr, hry⟩ := List.mem_map.mp hy
    by_cases hk : key r = key x
    · rw [if_pos hk] at hry
      exact Or.inl hry.symm
    · rw [if_neg hk] at hry
      subst hry
      exact Or.inr ⟨hr, hk⟩
  case isFalse h =>
    simp only [List.any_eq_true, decide_eq_true_eq, not_exists, not_and] at h
    rcases List.mem_append.mp hy with hmem | hx
    · exact Or.inr ⟨hmem, h y hmem⟩
    · exact Or.inl (List.mem_singleton.mp hx)

theorem find?_eq_of_all_eq {α : Type} (l : List α) (q : α → Bool) (w0 : α)
    (hex : ∃ w ∈ l, q w = true)
    (hall : ∀ w ∈ l, q w = true → w = w0) :
    l.find? q = some w0 := by
  induction l with
  | nil => obtain ⟨w, hw, _⟩ := hex; cases hw
  | cons a rest ih =>
    cases hq : q a with
    | true =>
      rw [List.find?_cons_of_pos _ hq]
      rw [hall a (List.mem_cons_self a rest) hq]
    | false =>
      rw [List.find?_cons_of_neg _ (by simp [hq])]
      apply ih
      · obtain ⟨w, hw, hqw⟩ := hex
        rcases List.mem_cons.mp hw with rfl | hw2
        · rw [hq] at hqw; cases hqw
        · exact ⟨w, hw2, hqw⟩
      · intro w hw hqw
        exact hall w (List.mem_cons_of_mem a hw) hqw

/-- An entry of the loaded environment map comes from the corresponding
table row (under the table's UNIQUE (project, env_name) invariant). -/
theorem loadEnvsFor_mem (st : DBState) (pname en : String)
    (envv : Environment)
    (hnd : (st.environments.map envKey).Nodup)
    (hmem : (en, envv) ∈ loadEnvsFor st pname) :
    findByKey envKey st.environments (pname, en) =
      some (envRowOf pname en envv) := by
  unfold loadEnvsFor at hmem
  obtain ⟨row, hrow, heq⟩ := List.mem_map.mp hmem
  have hrow2 : row ∈ st.environments.filter
      (fun e => decide (e.projectName = pname)) :=
    (List.perm_insertionSort _ _).mem_iff.mp hrow
  obtain ⟨hrowMem, hrowP⟩ := List.mem_filter.mp hrow2
  rw [decide_eq_true_eq] at hrowP
  have hen : row.envName = en := congrArg Prod.fst heq
  have henv : row.toEnvironment = envv := congrArg Prod.snd heq
  have hreconstruct : envRowOf pname en envv = row := by
    subst hen henv hrowP
    rfl
  rw [hreconstruct]
  have hkey : envKey row = (pname, en) := by
    unfold envKey
    rw [hrowP, hen]
  rw [show (pname, en) = envKey row from hkey.symm]
  exact nodup_find?_eq envKey hnd hrowMem

/-- The loaded environment map has distinct keys. -/
theorem loadEnvsFor_keysNodup (st : DBState) (pname : String)
    (hnd : (st.environments.map envKey).Nodup) :
    ((loadEnvsFor st pname).map Prod.fst).Nodup := by
  unfold loadEnvsFor
  rw [List.map_map]
  have hfun : (Prod.fst ∘ fun e : EnvRow => (e.envName, e.toEnvironment))
      = fun e : EnvRow => e.envName := rfl
  rw [hfun]
  have hfilter : ((st.environments.filter
      (fun e => decide (e.projectName = pname))).map envKey).Nodup :=
    hnd.sublist ((List.filter_sublist _).map envKey)
  have hperm := List.perm_insertionSort
    (fun a b : EnvRow => a.envName ≤ b.envName)
    (st.environments.filter (fun e => decide (e.projectName = pname)))
  have hsorted : ((List.insertionSort
      (fun a b : EnvRow => a.envName ≤ b.envName)
      (st.environments.filter
        (fun e => decide (e.projectName = pname)))).map envKey).Nodup :=
    ((hperm.map envKey).nodup_iff).mpr hfilter
  have hpn : ∀ e ∈ List.insertionSort
      (fun a b : EnvRow => a.envName ≤ b.envName)
      (st.environments.filter (fun e => decide (e.projectName = pname))),
      e.projectName = pname := by
    intro e he
    have hmem := hperm.mem_iff.mp he
    exact decide_eq_true_eq.mp (List.mem_filter.mp hmem).2
  have hinj := List.inj_on_of_nodup_map hsorted
  apply List.Nodup.map_on
  · intro x hx y hy hxy
    apply hinj hx hy
    unfold envKey
    rw [hpn x hx, hpn y hy, hxy]
  · exact hsorted.of_map

/-- The environments table after `SaveConfig`: the last row written at a
key, or the original row. -/
theorem findEnv_saveConfig (st : DBState) (cfg : Config)
    (k : String × String) :
    findByKey envKey (SaveConfig st cfg).environments k =
      (((cfg.projects.flatMap (fun pr => pr.environments.map
          (fun x => envRowOf pr.name x.1 x.2))).reverse.find?
        (fun r => decide (envKey r = k))).or
        (findByKey envKey st.environments k)) := by
  unfold SaveConfig
  rw [findByKey_foldl_ops DBState.environments envKey envWrite?
    environments_applyOp_write environments_applyOp_skip]
  rw [filterMap_envWrite_txSteps]

/-- The servers table after `SaveConfig`. -/
theorem findServer_saveConfig (st : DBState) (cfg : Config) (k : String) :
    findByKey Server.name (SaveConfig st cfg).servers k =
      ((cfg.servers.reverse.find? (fun r => decide (r.name = k))).or
        (findByKey Server.name st.servers k)) := by
  unfold SaveConfig
  rw [findByKey_foldl_ops DBState.servers Server.name serverWrite?
    servers_applyOp_write servers_applyOp_skip]
  rw [filterMap_serverWrite_txSteps]

/-- The projects table after `SaveConfig`. -/
theorem findProject_saveConfig (st : DBState) (cfg : Config) (k : String) :
    findByKey ProjectRow.name (SaveConfig st cfg).projects k =
      (((cfg.projects.map (fun pr =>
          (⟨pr.name, pr.repo, pr.server⟩ : ProjectRow))).reverse.find?
        (fun r => decide (r.name = k))).or
        (findByKey ProjectRow.name st.projects k)) := by
  unfold SaveConfig
  rw [findByKey_foldl_ops DBState.projects ProjectRow.name projectWrite?
    projects_applyOp_write projects_applyOp_skip]
  rw [filterMap_projectWrite_txSteps]

/-- `SaveConfig` never touches the credentials table. -/
theorem credentials_saveConfig (st : DBState) (cfg : Config) :
    (SaveConfig st cfg).credentials = st.credentials := by
  unfold SaveConfig
  induction txSteps cfg generalizing st with
  | nil => rfl
  | cons op rest ih =>
    rw [List.foldl_cons, ih, credentials_applyOp]

/-- An environment key is left unchanged by `SaveConfig` when every
write the config performs at that key rewrites the row already there. -/
theorem saveConfig_env_unchanged (st : DBState) (cfg : Config)
    (k : String × String)
    (hw : ∀ pr ∈ cfg.projects, ∀ x : String × Environment,
      x ∈ pr.environments → (pr.name, x.1) = k →
      findByKey envKey st.environments k = some (envRowOf pr.name x.1 x.2)) :
    findByKey envKey (SaveConfig st cfg).environments k =
      findByKey envKey st.environments k := by
  rw [findEnv_saveConfig]
  cases hf : (cfg.projects.flatMap (fun pr => pr.environments.map
      (fun x => envRowOf pr.name x.1 x.2))).reverse.find?
        (fun r => decide (envKey r = k)) with
  | none => simp
  | some w =>
    have hwmem := List.mem_of_find?_eq_some hf
    rw [List.mem_reverse] at hwmem
    obtain ⟨pr, hpr, x, hx, rfl⟩ := by
      simpa only [List.mem_flatMap, List.mem_map] using hwmem
    have hkey := List.find?_some hf
    rw [decide_eq_true_eq] at hkey
    have hkey2 : (pr.name, x.1) = k := hkey
    rw [hw pr hpr x hx hkey2]
    rfl

/-- The row `SaveConfig` leaves at an environment key written by some
project of the config (with distinct project names and distinct
environment names per project). -/
theorem saveConfig_env_lookup (st : DBState) (cfg : Config)
    (hproj : (cfg.projects.map (·.name)).Nodup)
    (pr : Project) (hpr : pr ∈ cfg.projects)
    (hkeys : (pr.environments.map Prod.fst).Nodup)
    (en : String) (e : Environment) (hen : (en, e) ∈ pr.environments) :
    findByKey envKey (SaveConfig st cfg).environments (pr.name, en) =
      some (envRowOf pr.name en e) := by
  rw [findEnv_saveConfig]
  have hfind : (cfg.projects.flatMap (fun q => q.environments.map
      (fun x => envRowOf q.name x.1 x.2))).reverse.find?
        (fun r => decide (envKey r = (pr.name, en)))
      = some (envRowOf pr.name en e) := by
    apply find?_eq_of_all_eq
    · refine ⟨envRowOf pr.name en e, ?_, by simp [envKey, envRowOf]⟩
      rw [List.mem_reverse]
      rw [List.mem_flatMap]
      exact ⟨pr, hpr, List.mem_map.mpr ⟨(en, e), hen, rfl⟩⟩
    · intro w hw hwk
      rw [List.mem_reverse] at hw
      obtain ⟨q, hq, x, hx, rfl⟩ := by
        simpa only [List.mem_flatMap, List.mem_map] using hw
      rw [decide_eq_true_eq] at hwk
      have hqname : q.name = pr.name := congrArg Prod.fst hwk
      have hxen : x.1 = en := congrArg Prod.snd hwk
      have hqpr : q = pr :=
        List.inj_on_of_nodup_map hproj hq hpr hqname
      subst hqpr
      have hxe : x = (en, e) := by
        apply List.inj_on_of_nodup_map hkeys hx hen
        simpa using hxen
      rw [hxe, hqname]
  rw [hfind]
  rfl

/-- A present environment key is still present after `SaveConfig`. -/
theorem saveConfig_env_isSome (st : DBState) (cfg : Config)
    (k : String × String)
    (h : (findByKey envKey st.environments k).isSome) :
    (findByKey envKey (SaveConfig st cfg).environments k).isSome := by
  rw [findEnv_saveConfig]
  cases (cfg.projects.flatMap (fun pr => pr.environments.map
      (fun x => envRowOf pr.name x.1 x.2))).reverse.find?
        (fun r => decide (envKey r = k)) <;> simp_all

/-- The row `SaveConfig` leaves for a server of the config (with
distinct server names in the config). -/
theorem saveConfig_server_lookup (st : DBState) (cfg : Config)
    (hnames : (cfg.servers.map (·.name)).Nodup)
    (srv : Server) (hsrv : srv ∈ cfg.servers) :
    findByKey Server.name (SaveConfig st cfg).servers srv.name = some srv := by
  rw [findServer_saveConfig]
  have hfind : cfg.servers.reverse.find?
      (fun r => decide (r.name = srv.name)) = some srv := by
    apply find?_eq_of_all_eq
    · exact ⟨srv, List.mem_reverse.mpr hsrv, by simp⟩
    · intro w hw hwk
      rw [List.mem_reverse] at hw
      rw [decide_eq_true_eq] at hwk
      exact List.inj_on_of_nodup_map hnames hw hsrv hwk
  rw [hfind]
  rfl

/-- A present server name is still present after `SaveConfig`. -/
theorem saveConfig_server_isSome (st : DBState) (cfg : Config) (k : String)
    (h : (findByKey Server.name st.servers k).isSome) :
    (findByKey Server.name (SaveConfig st cfg).servers k).isSome := by
  rw [findServer_saveConfig]
  cases cfg.servers.reverse.find? (fun r => decide (r.name = k)) <;> simp_all

/-- The row `SaveConfig` leaves for a project of the config (with
distinct project names in the config). -/
theorem saveConfig_project_lookup (st : DBState) (cfg : Config)
    (hproj : (cfg.projects.map (·.name)).Nodup)
    (pr : Project) (hpr : pr ∈ cfg.projects) :
    findByKey ProjectRow.name (SaveConfig st cfg).projects pr.name =
      some ⟨pr.name, pr.repo, pr.server⟩ := by
  rw [findProject_saveConfig]
  have hfind : (cfg.projects.map (fun q =>
      (⟨q.name, q.repo, q.server⟩ : ProjectRow))).reverse.find?
        (fun r => decide (r.name = pr.name))
      = some ⟨pr.name, pr.repo, pr.server⟩ := by
    apply find?_eq_of_all_eq
    · exact ⟨⟨pr.name, pr.repo, pr.server⟩,
        List.mem_reverse.mpr (List.mem_map.mpr ⟨pr, hpr, rfl⟩), by simp⟩
    · intro w hw hwk
      rw [List.mem_reverse] at hw
      obtain ⟨q, hq, rfl⟩ := List.mem_map.mp hw
      rw [decide_eq_true_eq] at hwk
      simp only at hwk
      have hqpr : q = pr := List.inj_on_of_nodup_map hproj hq hpr hwk
      rw [hqpr]
  rw [hfind]
  rfl

/-- A present project name is still present after `SaveConfig`. -/
theorem saveConfig_project_isSome (st : DBState) (cfg : Config) (k : String)
    (h : (findByKey ProjectRow.name st.projects k).isSome) :
    (findByKey ProjectRow.name (SaveConfig st cfg).projects k).isSome := by
  rw [findProject_saveConfig]
  cases (cfg.projects.map (fun pr =>
      (⟨pr.name, pr.repo, pr.server⟩ : ProjectRow))).reverse.find?
        (fun r => decide (r.name = k)) <;> simp_all

/-- `SaveConfig` preserves distinctness of environment keys. -/
theorem saveConfig_envKeysNodup (st : DBState) (cfg : Config)
    (h : (st.environments.map envKey).Nodup) :
    (((SaveConfig st cfg).environments).map envKey).Nodup := by
  unfold SaveConfig
  exact keysNodup_foldl_ops DBState.environments envKey envWrite?
    environments_applyOp_write environments_applyOp_skip (txSteps cfg) st h

theorem mem_updateFirstProject (l : List Project) (n : String)
    (f : Project → Project) (pr : Project)
    (h : pr ∈ updateFirstProject l n f) :
    pr ∈ l ∨ ∃ pr0, pr0 ∈ l ∧ pr0.name = n ∧ pr = f pr0 := by
  induction l with
  | nil => cases h
  | cons y rest ih =>
    unfold updateFirstProject at h
    split at h
    case isTrue hy =>
      rcases List.mem_cons.mp h with rfl | hmem
      · exact Or.inr ⟨y, List.mem_cons_self y rest, hy, rfl⟩
      · exact Or.inl (List.mem_cons_of_mem y hmem)
    case isFalse hy =>
      rcases List.mem_cons.mp h with rfl | hmem
      · exact Or.inl (List.mem_cons_self pr rest)
      · rcases ih hmem with h1 | ⟨pr0, h0, hn, he⟩
        · exact Or.inl (List.mem_cons_of_mem y h1)
        · exact Or.inr ⟨pr0, List.mem_cons_of_mem y h0, hn, he⟩

theorem updateFirstProject_mem_of (l : List Project) (n : String)
    (f : Project → Project) (pr0 : Project)
    (hnd : (l.map (·.name)).Nodup) (h0 : pr0 ∈ l) (hn : pr0.name = n) :
    f pr0 ∈ updateFirstProject l n f := by
  induction l with
  | nil => cases h0
  | cons y rest ih =>
    simp only [List.map_cons, List.nodup_cons] at hnd
    unfold updateFirstProject
    rcases List.mem_cons.mp h0 with rfl | hmem
    · rw [if_pos hn]
      exact List.mem_cons_self _ _
    · by_cases hy : y.name = n
      · exfalso
        apply hnd.1
        rw [hy, ← hn]
        exact List.mem_map_of_mem (·.name) hmem
      · rw [if_neg hy]
        exact List.mem_cons_of_mem y (ih hnd.2 hmem)

theorem updateFirstProject_names (l : List Project) (n : String)
    (f : Project → Project) (hf : ∀ pr, (f pr).name = pr.name) :
    (updateFirstProject l n f).map (·.name) = l.map (·.name) := by
  induction l with
  | nil => rfl
  | cons y rest ih =>
    unfold updateFirstProject
    split
    case isTrue hy => simp [hf y]
    case isFalse hy => simp [ih]

/-- Every loaded project is the image of a project row, with its
environment map loaded from the environments table. -/
theorem loadConfig_project_shape (st : DBState) (pr : Project)
    (h : pr ∈ (LoadConfig st).projects) :
    ∃ q ∈ st.projects,
      pr = (⟨q.name, q.repo, q.server, loadEnvsFor st q.name⟩ : Project) := by
  unfold LoadConfig at h
  simp only [List.mem_map] at h
  obtain ⟨q, hq, rfl⟩ := h
  exact ⟨q, (List.perm_insertionSort _ _).mem_iff.mp hq, rfl⟩

/-- Every project row appears as a loaded project. -/
theorem loadConfig_project_of_row (st : DBState) (q : ProjectRow)
    (hq : q ∈ st.projects) :
    (⟨q.name, q.repo, q.server, loadEnvsFor st q.name⟩ : Project)
      ∈ (LoadConfig st).projects := by
  unfold LoadConfig
  simp only [List.mem_map]
  exact ⟨q, (List.perm_insertionSort _ _).mem_iff.mpr hq, rfl⟩

/-- The loaded project names are the project rows' names up to order. -/
theorem loadConfig_projectNames_nodup (st : DBState)
    (h : (st.projects.map (·.name)).Nodup) :
    (((LoadConfig st).projects).map (·.name)).Nodup := by
  unfold LoadConfig
  simp only [List.map_map]
  have hperm := (List.perm_insertionSort
    (fun a b : ProjectRow => a.name ≤ b.name) st.projects).map
      (fun q : ProjectRow => q.name)
  exact hperm.nodup_iff.mpr h

/-- Every server row appears among the loaded servers. -/
theorem loadConfig_server_mem (st : DBState) (srv : Server)
    (h : srv ∈ st.servers) : srv ∈ (LoadConfig st).servers := by
  unfold LoadConfig
  exact (List.perm_insertionSort _ _).mem_iff.mpr h

/-- Looking an environment name up in the loaded environment map agrees
with the table lookup. -/
theorem loadEnvsFor_find (st : DBState) (pn en : String) (row : EnvRow)
    (hnd : (st.environments.map envKey).Nodup)
    (h : findByKey envKey st.environments (pn, en) = some row) :
    (loadEnvsFor st pn).find? (fun x => decide (x.1 = en)) =
      some (en, row.toEnvironment) := by
  have hmem : row ∈ st.environments := List.mem_of_find?_eq_some h
  have hkey := List.find?_some h
  rw [decide_eq_true_eq] at hkey
  have hpn : row.projectName = pn := congrArg Prod.fst hkey
  have hen : row.envName = en := congrArg Prod.snd hkey
  have hmem2 : (row.envName, row.toEnvironment) ∈ loadEnvsFor st pn := by
    unfold loadEnvsFor
    refine List.mem_map.mpr ⟨row, ?_, rfl⟩
    refine (List.perm_insertionSort _ _).mem_iff.mpr ?_
    exact List.mem_filter.mpr ⟨hmem, by simp [hpn]⟩
  have hfind := nodup_find?_eq Prod.fst (loadEnvsFor_keysNodup st pn hnd) hmem2
  rw [hen] at hfind
  simpa using hfind

/-- Keys not equal to the written environment key are unchanged by the
final-step config update plus save. -/
theorem applyEnv_save_unchanged (st : DBState) (pn repo srv en : String)
    (env : Environment)
    (henv : (st.environments.map envKey).Nodup)
    (k : String × String) (hk : k ≠ (pn, en)) :
    findByKey envKey (SaveConfig st
        (applyEnvToConfig (LoadConfig st) pn repo srv en env)).environments k
      = findByKey envKey st.environments k := by
  apply saveConfig_env_unchanged
  intro pr hpr x hx hxk
  unfold applyEnvToConfig at hpr
  split at hpr
  case h_1 =>
    simp only at hpr
    rcases mem_updateFirstProject _ _ _ _ hpr with hl | ⟨pr0, h0, hn, rfl⟩
    · obtain ⟨q, _, rfl⟩ := loadConfig_project_shape st pr hl
      have := loadEnvsFor_mem st q.name x.1 x.2 henv (by simpa using hx)
      rw [← hxk]
      simpa using this
    · obtain ⟨q, _, rfl⟩ := loadConfig_project_shape st pr0 h0
      simp only at hx hxk hn
      rcases mem_upsertBy Prod.fst _ _ _ hx with rfl | ⟨hx2, hne⟩
      · exfalso
        apply hk
        rw [← hxk, hn]
      · have := loadEnvsFor_mem st q.name x.1 x.2 henv (by simpa using hx2)
        rw [← hxk]
        simpa using this
  case h_2 =>
    simp only at hpr
    rcases List.mem_append.mp hpr with hl | hnew
    · obtain ⟨q, _, rfl⟩ := loadConfig_project_shape st pr hl
      have := loadEnvsFor_mem st q.name x.1 x.2 henv (by simpa using hx)
      rw [← hxk]
      simpa using this
    · rw [List.mem_singleton] at hnew
      subst hnew
      simp only [List.mem_singleton] at hx
      subst hx
      exact absurd hxk.symm (by simpa using hk)

/-- The written environment key holds exactly the written row after the
final-step config update plus save. -/
theorem applyEnv_save_target (st : DBState) (pn repo srv en : String)
    (env : Environment)
    (hproj : (st.projects.map (·.name)).Nodup)
    (henv : (st.environments.map envKey).Nodup) :
    findByKey envKey (SaveConfig st
        (applyEnvToConfig (LoadConfig st) pn repo srv en env)).environments
      (pn, en) = some (envRowOf pn en env) := by
  unfold applyEnvToConfig
  cases hfp : (LoadConfig st).findProject pn with
  | some pr0 =>
    simp only
    have hpr0mem : pr0 ∈ (LoadConfig st).projects :=
      List.mem_of_find?_eq_some hfp
    have hpr0name : pr0.name = pn := by
      have := List.find?_some hfp
      rwa [decide_eq_true_eq] at this
    obtain ⟨q, hq, hqshape⟩ := loadConfig_project_shape st pr0 hpr0mem
    have hnames : ((updateFirstProject (LoadConfig st).projects pn
        (fun pr => { pr with environments :=
          (upsertBy Prod.fst pr.environments (en, env)) })).map
            (·.name)).Nodup := by
      rw [updateFirstProject_names _ pn
        (fun pr => { pr with environments :=
          (upsertBy Prod.fst pr.environments (en, env)) }) (fun pr => rfl)]
      exact loadConfig_projectNames_nodup st hproj
    have hupd : ({ pr0 with environments :=
        (upsertBy Prod.fst pr0.environments (en, env)) } : Project)
        ∈ updateFirstProject (LoadConfig st).projects pn
          (fun pr => { pr with environments :=
            (upsertBy Prod.fst pr.environments (en, env)) }) :=
      updateFirstProject_mem_of _ _ _ pr0
        (loadConfig_projectNames_nodup st hproj) hpr0mem hpr0name
    have hkeys : ((upsertBy Prod.fst pr0.environments (en, env)).map
        Prod.fst).Nodup := by
      apply keysNodup_upsertBy
      rw [hqshape]
      exact loadEnvsFor_keysNodup st q.name henv
    have hmem : (en, env) ∈ upsertBy Prod.fst pr0.environments (en, env) :=
      mem_upsertBy_self Prod.fst pr0.environments (en, env)
    have := saveConfig_env_lookup st
      { hetznerProjects := (LoadConfig st).hetznerProjects,
        servers := (LoadConfig st).servers,
        projects := (updateFirstProject (LoadConfig st).projects pn
          (fun pr => { pr with environments :=
            (upsertBy Prod.fst pr.environments (en, env)) })) }
      hnames _ hupd hkeys en env hmem
    simpa [hpr0name] using this
  | none =>
    simp only
    have hnames : (((LoadConfig st).projects ++
        [(⟨pn, repo, srv, [(en, env)]⟩ : Project)]).map (·.name)).Nodup := by
      rw [List.map_append]
      rw [List.nodup_append]
      refine ⟨loadConfig_projectNames_nodup st hproj, by simp, ?_⟩
      intro a ha
      simp only [List.mem_map] at ha
      obtain ⟨pr, hpr, rfl⟩ := ha
      simp only [List.map_cons, List.map_nil, List.mem_singleton]
      intro hc
      have := List.find?_eq_none.mp hfp pr hpr
      rw [decide_eq_true_eq] at this
      exact this hc
    have hmem : (⟨pn, repo, srv, [(en, env)]⟩ : Project)
        ∈ (LoadConfig st).projects ++
          [(⟨pn, repo, srv, [(en, env)]⟩ : Project)] := by
      simp
    have := saveConfig_env_lookup st
      { hetznerProjects := (LoadConfig st).hetznerProjects,
        servers := (LoadConfig st).servers,
        projects := ((LoadConfig st).projects ++
          [(⟨pn, repo, srv, [(en, env)]⟩ : Project)]) }
      hnames _ hmem (by simp) en env (by simp)
    simpa using this

theorem setupSuccessTrace_dns (o : SetupOracles) (st : DBState)
    (p : SetupParams) :
    dnsCalls (setupSuccessTrace o st p) =
      dnsPlan o.rootDomain o.listOk o.zone p.domain (setupServer o st p).ip := by
  unfold setupSuccessTrace setupStep2Events setupTailEvents dnsPlan
  repeat' split
  all_goals simp

theorem deploySuccessTrace_dns (o : DeployOracles) (st : DBState)
    (p : DeployParams) :
    dnsCalls (deploySuccessTrace o st p) =
      dnsPlan o.rootDomain o.listOk o.zone p.domain (deployServer o st p).ip := by
  unfold deploySuccessTrace deployStep2Events deployTailEvents dnsPlan
  repeat' split
  all_goals simp

/-! ## Claims about the step sequencers -/

/-- C1 (amended): on every successful run, the onProgress callback is
invoked exactly once per step with stepIndex 1..totalSteps in ascending
order, the fixed totalSteps (10 for `project.Setup`, 8 for
`service.Deploy`) and the step's fixed message; each invocation happens
synchronously after every action of the preceding steps and before
every action of its own step — that is, immediately before its step
runs (announcing it), not after the step completes.  The before/after
ordering is captured by `Event.rank`: the whole trace is sorted by it,
and a step's progress event ranks strictly below that step's actions
and strictly above the previous step's actions. -/
theorem claim_C1_progress_reporting :
    (∀ (o : SetupOracles) (st : DBState) (p : SetupParams)
        (tr : List Event) (stFinal : DBState),
      Setup o st p = (tr, stFinal, none) →
      progressEvents tr = setupProgressList ∧
      List.Pairwise (fun a b => Event.rank a ≤ Event.rank b) tr) ∧
    (∀ (o : DeployOracles) (st : DBState) (p : DeployParams)
        (tr : List Event) (stFinal : DBState),
      Deploy o st p = (tr, stFinal, none) →
      progressEvents tr = deployProgressList ∧
      List.Pairwise (fun a b => Event.rank a ≤ Event.rank b) tr) := by
  constructor
  · intro o st p tr stF h
    obtain ⟨pn, _, htr, _⟩ := setup_success o st p tr stF h
    subst htr
    exact ⟨setupSuccessTrace_progress o st p, setupSuccessTrace_sorted o st p⟩
  · intro o st p tr stF h
    obtain ⟨pn, _, htr, _⟩ := deploy_success o st p tr stF h
    subst htr
    exact ⟨deploySuccessTrace_progress o st p, deploySuccessTrace_sorted o st p⟩

/-- Witness for C1's amended statement on a concrete successful run. -/
theorem claim_C1_witness :
    (Setup oSetup0 stSetup0 pSetup0).2.2 = none ∧
    progressEvents (Setup oSetup0 stSetup0 pSetup0).1 = setupProgressList ∧
    List.Pairwise (fun a b => Event.rank a ≤ Event.rank b)
      (Setup oSetup0 stSetup0 pSetup0).1 := by
  have hnone : (Setup oSetup0 stSetup0 pSetup0).2.2 = none := by decide
  have h : Setup oSetup0 stSetup0 pSetup0 =
      ((Setup oSetup0 stSetup0 pSetup0).1,
       (Setup oSetup0 stSetup0 pSetup0).2.1, none) := by
    rw [← hnone]
  obtain ⟨hp, hs⟩ := claim_C1_progress_reporting.1 oSetup0 stSetup0 pSetup0
    _ _ h
  exact ⟨hnone, hp, hs⟩

/-- Counterexample to C1 as stated: on this concrete successful run the
invocation with stepIndex 10 (trace position 27) happens before step
10's own work, the config save (trace position 28) — the callback fires
before its step runs, not "after that step completes successfully". -/
theorem claim_C1_counterexample :
    (Setup oSetup0 stSetup0 pSetup0).2.2 = none ∧
    (Setup oSetup0 stSetup0 pSetup0).1.get? 27 =
      some (.progress 10 10 "Updating config...") ∧
    (Setup oSetup0 stSetup0 pSetup0).1.get? 28 =
      some (.act 10 .saveConfig) := by
  decide

/-- C2 (amended): on every successful run of either workflow, the DNS
calls issued are exactly `dnsPlan`: the listing, then — only when the
listing succeeds; a listing failure silently skips deletion — one
deletion per pre-existing A/CNAME/ALIAS record named exactly the target
domain, all before the single A-record creation under the zone's root
with the subdomain-remainder name (empty at the apex) and the host IP,
followed by the www CNAME attempt.  The outcome of the www CNAME
creation is discarded, so it never affects the run's result. -/
theorem claim_C2_dns_sync :
    (∀ (o : SetupOracles) (st : DBState) (p : SetupParams)
        (tr : List Event) (stFinal : DBState),
      Setup o st p = (tr, stFinal, none) →
      dnsCalls tr =
        dnsPlan o.rootDomain o.listOk o.zone p.domain (setupServer o st p).ip) ∧
    (∀ (o : DeployOracles) (st : DBState) (p : DeployParams)
        (tr : List Event) (stFinal : DBState),
      Deploy o st p = (tr, stFinal, none) →
      dnsCalls tr =
        dnsPlan o.rootDomain o.listOk o.zone p.domain (deployServer o st p).ip) ∧
    (∀ (o : SetupOracles) (st : DBState) (p : SetupParams) (b : Bool),
      Setup { o with createWWWOk := b } st p = Setup o st p) ∧
    (∀ (o : DeployOracles) (st : DBState) (p : DeployParams) (b : Bool),
      Deploy { o with createWWWOk := b } st p = Deploy o st p) := by
  refine ⟨?_, ?_, ?_, ?_⟩
  · intro o st p tr stF h
    obtain ⟨pn, _, htr, _⟩ := setup_success o st p tr stF h
    subst htr
    exact setupSuccessTrace_dns o st p
  · intro o st p tr stF h
    obtain ⟨pn, _, htr, _⟩ := deploy_success o st p tr stF h
    subst htr
    exact deploySuccessTrace_dns o st p
  · intro o st p b
    rfl
  · intro o st p b
    rfl

/-- Witness for C2's amended statement on a concrete successful run. -/
theorem claim_C2_witness :
    (Setup oSetup0 stSetup0 pSetup0).2.2 = none ∧
    dnsCalls (Setup oSetup0 stSetup0 pSetup0).1 =
      [.listRecords "angmar.dev", .deleteRecord "angmar.dev" "42",
       .createRecord "angmar.dev" "foo" "A" "1.2.3.4" "600",
       .createRecord "angmar.dev" "www.foo" "CNAME" "foo.angmar.dev" "600"] := by
  have hnone : (Setup oSetup0 stSetup0 pSetup0).2.2 = none := by decide
  have h : Setup oSetup0 stSetup0 pSetup0 =
      ((Setup oSetup0 stSetup0 pSetup0).1,
       (Setup oSetup0 stSetup0 pSetup0).2.1, none) := by
    rw [← hnone]
  have hdns := claim_C2_dns_sync.1 oSetup0 stSetup0 pSetup0 _ _ h
  refine ⟨hnone, hdns.trans ?_⟩
  decide

/-- Counterexample to C2 as stated: on this concrete successful run the
record listing fails, so the pre-existing matching A record is never
deleted, yet both record creations still happen — "all pre-existing
records ... are deleted before any creation" is false for this run. -/
theorem claim_C2_counterexample :
    (Setup { oSetup0 with listOk := false } stSetup0 pSetup0).2.2 = none ∧
    ({ oSetup0 with listOk := false } : SetupOracles).zone.filter
      (matchesDomain pSetup0.domain) ≠ [] ∧
    (dnsCalls (Setup { oSetup0 with listOk := false } stSetup0
        pSetup0).1).countP
      (fun c => match c with | .deleteRecord _ _ => true | _ => false) = 0 ∧
    (dnsCalls (Setup { oSetup0 with listOk := false } stSetup0
        pSetup0).1).countP
      (fun c => match c with | .createRecord _ _ _ _ _ => true | _ => false)
      = 2 := by
  refine ⟨by decide, by decide, by decide, by decide⟩

/-- C4: on every successful `Setup` run targeting the "prod" environment
of a project (over a store whose environment keys are distinct, as the
UNIQUE(project_id, env_name) constraint guarantees), every environment
key other than the targeted (project, "prod") one is left exactly as it
was — in particular an existing "dev" row of the same project keeps
every field. -/
theorem claim_C4_dev_env_preserved
    (o : SetupOracles) (st : DBState) (p : SetupParams)
    (tr : List Event) (stFinal : DBState)
    (henv : (st.environments.map envKey).Nodup)
    (hprod : p.envName = "prod")
    (h : Setup o st p = (tr, stFinal, none)) :
    (∀ k : String × String, k ≠ (p.projectName, p.envName) →
      findByKey envKey stFinal.environments k =
        findByKey envKey st.environments k) ∧
    (∀ devRow : EnvRow,
      findByKey envKey st.environments (p.projectName, "dev") = some devRow →
      findByKey envKey stFinal.environments (p.projectName, "dev") =
        some devRow) := by
  obtain ⟨provName, hprov, htr, hst⟩ := setup_success o st p tr stFinal h
  subst hst
  simp only [setupFinalStore]
  constructor
  · intro k hk
    exact applyEnv_save_unchanged st p.projectName p.repo p.serverName
      p.envName (setupEnv p provName) henv k hk
  · intro devRow hdev
    rw [applyEnv_save_unchanged st p.projectName p.repo p.serverName
      p.envName (setupEnv p provName) henv (p.projectName, "dev") ?_]
    · exact hdev
    · rw [hprod]
      intro hc
      exact (by decide : ("dev" : String) ≠ "prod") (congrArg Prod.snd hc)

/-- Witness for C4 on a concrete successful run over a store holding a
"dev" row for the target project. -/
theorem claim_C4_witness :
    (Setup oSetup0 stSetup1 pSetup0).2.2 = none ∧
    findByKey envKey (Setup oSetup0 stSetup1 pSetup0).2.1.environments
      ("myproj", "dev") =
      some ⟨"myproj", "dev", "dev.angmar.dev", "manual", "dev",
        "/opt/myproj-dev", "myproj-dev-deploy", 3001⟩ := by
  have hnone : (Setup oSetup0 stSetup1 pSetup0).2.2 = none := by decide
  have h : Setup oSetup0 stSetup1 pSetup0 =
      ((Setup oSetup0 stSetup1 pSetup0).1,
       (Setup oSetup0 stSetup1 pSetup0).2.1, none) := by
    rw [← hnone]
  obtain ⟨hframe, hdev⟩ := claim_C4_dev_env_preserved oSetup0 stSetup1
    pSetup0 _ _ (by decide) rfl h
  exact ⟨hnone, hdev _ (by decide)⟩

/-- C10: every successful `Deploy` run (over a store with distinct
project names and distinct environment keys, as the UNIQUE constraints
guarantee) persists its environment under the fixed key "prod" of the
targeted project — overwriting whatever row was there — with deploy
user "peon", an empty branch, deploy path "/opt/" plus the service
name, and the run's domain, provider and port. -/
theorem claim_C10_deploy_prod_env
    (o : DeployOracles) (st : DBState) (p : DeployParams)
    (tr : List Event) (stFinal : DBState)
    (hproj : (st.projects.map (·.name)).Nodup)
    (henv : (st.environments.map envKey).Nodup)
    (h : Deploy o st p = (tr, stFinal, none)) :
    ∃ provName, o.providerName = some provName ∧
      findByKey envKey stFinal.environments (p.serviceName, "prod") =
        some ⟨p.serviceName, "prod", p.domain, provName, "",
          "/opt/" ++ p.serviceName, "peon", p.port⟩ := by
  obtain ⟨provName, hprov, htr, hst⟩ := deploy_success o st p tr stFinal h
  subst hst
  refine ⟨provName, hprov, ?_⟩
  simp only [deployFinalStore]
  have hrow := applyEnv_save_target st p.serviceName "" p.serverName "prod"
    (deployEnv p provName) hproj henv
  simpa [envRowOf, deployEnv] using hrow

/-- Witness for C10 on a concrete successful run whose store has a stale
"prod" row (overwritten) and a "dev" row for the target project. -/
theorem claim_C10_witness :
    (Deploy oDeploy0 stDeploy0 pDeploy0).2.2 = none ∧
    findByKey envKey (Deploy oDeploy0 stDeploy0 pDeploy0).2.1.environments
      ("svc", "prod") =
      some ⟨"svc", "prod", "foo.angmar.dev", "cloudflare", "",
        "/opt/svc", "peon", 3000⟩ := by
  have hnone : (Deploy oDeploy0 stDeploy0 pDeploy0).2.2 = none := by decide
  have h : Deploy oDeploy0 stDeploy0 pDeploy0 =
      ((Deploy oDeploy0 stDeploy0 pDeploy0).1,
       (Deploy oDeploy0 stDeploy0 pDeploy0).2.1, none) := by
    rw [← hnone]
  obtain ⟨pv, hpv, hrow⟩ := claim_C10_deploy_prod_env oDeploy0 stDeploy0
    pDeploy0 _ _ (by decide) (by decide) h
  have hpv2 : pv = "cloudflare" := by
    have h2 : some pv = some "cloudflare" :=
      hpv.symm.trans (show oDeploy0.providerName = some "cloudflare" from rfl)
    exact Option.some.inj h2
  subst hpv2
  exact ⟨hnone, hrow.trans (by decide)⟩

/-- C3: (1) with distinct server names, every server of the saved config
is loaded back field-for-field (it is a member of the loaded list);
(2) with distinct project names and environment keys, every project of
the saved config is loaded back with its name, repo and server fields
and an environment map answering every environment of the saved project
field-for-field; (3) two `SaveConfig` calls writing two environments of
the same project name merge: the project loaded afterwards answers both
(the second call, as in the code, does not touch the first call's key);
(4) `SaveConfig` never deletes: every server name, project name and
environment key present before a save is still present after it. -/
theorem claim_C3_roundtrip_merge :
    (∀ (st : DBState) (cfg : Config),
      (cfg.servers.map (·.name)).Nodup →
      ∀ srv ∈ cfg.servers, srv ∈ (LoadConfig (SaveConfig st cfg)).servers) ∧
    (∀ (st : DBState) (cfg : Config),
      (cfg.projects.map (·.name)).Nodup →
      (st.environments.map envKey).Nodup →
      ∀ pr ∈ cfg.projects, (pr.environments.map Prod.fst).Nodup →
      ∃ pr2 ∈ (LoadConfig (SaveConfig st cfg)).projects,
        pr2.name = pr.name ∧ pr2.repo = pr.repo ∧ pr2.server = pr.server ∧
        ∀ en e, (en, e) ∈ pr.environments →
          pr2.environments.find? (fun x => decide (x.1 = en)) =
            some (en, e)) ∧
    (∀ (st : DBState) (cfgA cfgB : Config) (pn en1 en2 : String)
        (e1 e2 : Environment) (prA prB : Project),
      (st.environments.map envKey).Nodup →
      (cfgA.projects.map (·.name)).Nodup →
      (cfgB.projects.map (·.name)).Nodup →
      prA ∈ cfgA.projects → prA.name = pn →
      (prA.environments.map Prod.fst).Nodup →
      (en1, e1) ∈ prA.environments →
      prB ∈ cfgB.projects → prB.name = pn →
      (prB.environments.map Prod.fst).Nodup →
      (en2, e2) ∈ prB.environments →
      (∀ pr ∈ cfgB.projects, ∀ x ∈ pr.environments,
        ¬(pr.name = pn ∧ x.1 = en1)) →
      ∃ pr2 ∈ (LoadConfig (SaveConfig (SaveConfig st cfgA) cfgB)).projects,
        pr2.name = pn ∧
        pr2.environments.find? (fun x => decide (x.1 = en1)) =
          some (en1, e1) ∧
        pr2.environments.find? (fun x => decide (x.1 = en2)) =
          some (en2, e2)) ∧
    (∀ (st : DBState) (cfg : Config),
      (∀ k, (findByKey Server.name st.servers k).isSome →
        (findByKey Server.name (SaveConfig st cfg).servers k).isSome) ∧
      (∀ k, (findByKey ProjectRow.name st.projects k).isSome →
        (findByKey ProjectRow.name (SaveConfig st cfg).projects k).isSome) ∧
      (∀ k, (findByKey envKey st.environments k).isSome →
        (findByKey envKey (SaveConfig st cfg).environments k).isSome)) := by
  refine ⟨?_, ?_, ?_, ?_⟩
  · intro st cfg hsrv srv hmem
    have h := saveConfig_server_lookup st cfg hsrv srv hmem
    exact loadConfig_server_mem _ srv (List.mem_of_find?_eq_some h)
  · intro st cfg hproj henv pr hpr hkeys
    have hq : findByKey ProjectRow.name (SaveConfig st cfg).projects pr.name
        = some ⟨pr.name, pr.repo, pr.server⟩ :=
      saveConfig_project_lookup st cfg hproj pr hpr
    have hqmem : (⟨pr.name, pr.repo, pr.server⟩ : ProjectRow)
        ∈ (SaveConfig st cfg).projects := List.mem_of_find?_eq_some hq
    refine ⟨⟨pr.name, pr.repo, pr.server,
      loadEnvsFor (SaveConfig st cfg) pr.name⟩,
      loadConfig_project_of_row (SaveConfig st cfg) _ hqmem,
      rfl, rfl, rfl, ?_⟩
    intro en e hen
    have hrow := saveConfig_env_lookup st cfg hproj pr hpr hkeys en e hen
    have hfind := loadEnvsFor_find (SaveConfig st cfg) pr.name en
      (envRowOf pr.name en e) (saveConfig_envKeysNodup st cfg henv) hrow
    have heq : (envRowOf pr.name en e).toEnvironment = e := rfl
    rw [heq] at hfind
    exact hfind
  · intro st cfgA cfgB pn en1 en2 e1 e2 prA prB hstenv hA hB hprA hprAn
      hkA hen1 hprB hprBn hkB hen2 hskip
    have henv1 : ((SaveConfig st cfgA).environments.map envKey).Nodup :=
      saveConfig_envKeysNodup st cfgA hstenv
    have henv2 : ((SaveConfig (SaveConfig st cfgA)
        cfgB).environments.map envKey).Nodup :=
      saveConfig_envKeysNodup (SaveConfig st cfgA) cfgB henv1
    have h1 : findByKey envKey (SaveConfig st cfgA).environments (pn, en1)
        = some (envRowOf pn en1 e1) := by
      have h0 := saveConfig_env_lookup st cfgA hA prA hprA hkA en1 e1 hen1
      rwa [hprAn] at h0
    have h2 : findByKey envKey
        (SaveConfig (SaveConfig st cfgA) cfgB).environments (pn, en1)
        = findByKey envKey (SaveConfig st cfgA).environments (pn, en1) := by
      apply saveConfig_env_unchanged
      intro pr hpr x hx hxk
      exact absurd ⟨congrArg Prod.fst hxk, congrArg Prod.snd hxk⟩
        (hskip pr hpr x hx)
    have h3 : findByKey envKey
        (SaveConfig (SaveConfig st cfgA) cfgB).environments (pn, en2)
        = some (envRowOf pn en2 e2) := by
      have h0 := saveConfig_env_lookup (SaveConfig st cfgA) cfgB hB prB
        hprB hkB en2 e2 hen2
      rwa [hprBn] at h0
    have hq1 : findByKey ProjectRow.name (SaveConfig st cfgA).projects pn
        = some ⟨pn, prA.repo, prA.server⟩ := by
      have h0 := saveConfig_project_lookup st cfgA hA prA hprA
      rwa [hprAn] at h0
    have hq1s : (findByKey ProjectRow.name
        (SaveConfig st cfgA).projects pn).isSome := by
      rw [hq1]; rfl
    have hq2s := saveConfig_project_isSome (SaveConfig st cfgA) cfgB pn hq1s
    obtain ⟨q, hq⟩ := Option.isSome_iff_exists.mp hq2s
    have hqmem : q ∈ (SaveConfig (SaveConfig st cfgA) cfgB).projects :=
      List.mem_of_find?_eq_some hq
    have hqn : q.name = pn := by
      have h0 := List.find?_some hq
      rwa [decide_eq_true_eq] at h0
    refine ⟨⟨q.name, q.repo, q.server,
      loadEnvsFor (SaveConfig (SaveConfig st cfgA) cfgB) q.name⟩,
      loadConfig_project_of_row _ q hqmem, hqn, ?_, ?_⟩
    · show (loadEnvsFor (SaveConfig (SaveConfig st cfgA) cfgB)
          q.name).find? (fun x => decide (x.1 = en1)) = some (en1, e1)
      rw [hqn]
      have hfind := loadEnvsFor_find (SaveConfig (SaveConfig st cfgA) cfgB)
        pn en1 (envRowOf pn en1 e1) henv2 (h2.trans h1)
      have heq : (envRowOf pn en1 e1).toEnvironment = e1 := rfl
      rw [heq] at hfind
      exact hfind
    · show (loadEnvsFor (SaveConfig (SaveConfig st cfgA) cfgB)
          q.name).find? (fun x => decide (x.1 = en2)) = some (en2, e2)
      rw [hqn]
      have hfind := loadEnvsFor_find (SaveConfig (SaveConfig st cfgA) cfgB)
        pn en2 (envRowOf pn en2 e2) henv2 h3
      have heq : (envRowOf pn en2 e2).toEnvironment = e2 := rfl
      rw [heq] at hfind
      exact hfind
  · intro st cfg
    exact ⟨fun k => saveConfig_server_isSome st cfg k,
           fun k => saveConfig_project_isSome st cfg k,
           fun k => saveConfig_env_isSome st cfg k⟩

/-- Witness for C3 on concrete configs: a save round-trips the server
and the project with its "prod" environment, and a second save writing
the "dev" environment of the same project merges with the first. -/
theorem claim_C3_witness :
    ((⟨"vps1", "1.2.3.4", "prod", 7⟩ : Server)
      ∈ (LoadConfig (SaveConfig stC3 cfgA0)).servers) ∧
    (∃ pr2 ∈ (LoadConfig (SaveConfig stC3 cfgA0)).projects,
      pr2.name = "alpha" ∧ pr2.repo = "github.com/x/y" ∧
      pr2.server = "vps1" ∧
      pr2.environments.find? (fun x => decide (x.1 = "prod")) =
        some ("prod", envP)) ∧
    (∃ pr2 ∈ (LoadConfig (SaveConfig (SaveConfig stC3 cfgA0)
        cfgB0)).projects,
      pr2.name = "alpha" ∧
      pr2.environments.find? (fun x => decide (x.1 = "prod")) =
        some ("prod", envP) ∧
      pr2.environments.find? (fun x => decide (x.1 = "dev")) =
        some ("dev", envD)) := by
  refine ⟨?_, ?_, ?_⟩
  · exact claim_C3_roundtrip_merge.1 stC3 cfgA0 (by decide) _ (by decide)
  · obtain ⟨pr2, hmem, hn, hr, hs, hall⟩ :=
      claim_C3_roundtrip_merge.2.1 stC3 cfgA0 (by decide) (by decide)
        ⟨"alpha", "github.com/x/y", "vps1", [("prod", envP)]⟩ (by decide)
        (by decide)
    exact ⟨pr2, hmem, hn, hr, hs, hall "prod" envP (by decide)⟩
  · exact claim_C3_roundtrip_merge.2.2.1 stC3 cfgA0 cfgB0 "alpha" "prod"
      "dev" envP envD
      ⟨"alpha", "github.com/x/y", "vps1", [("prod", envP)]⟩
      ⟨"alpha", "github.com/x/y", "vps1", [("dev", envD)]⟩
      (by decide) (by decide) (by decide) (by decide) rfl (by decide)
      (by decide) (by decide) rfl (by decide) (by decide) (by decide)

end Arnor
